import Mathlib

/-!
Verification of the exchange-rate core of the `u2c-exchange-bot` repository
(`bot/rates/providers.py` and `bot/rates/service.py`).

Shallow embedding conventions:
* Python `float` rate values are modelled as exact rationals `ℚ`; the division
  `1.0 / x` is modelled by rational division (so inverse edges are exact).
* `datetime` UTC instants are modelled as integers `ℤ`; `timedelta` addition and
  comparison become integer addition and comparison.
* The two `while` loops of `RateService._find_rate` (the BFS work-list loop and
  the predecessor-walk reconstruction loop) are modelled as fuel-indexed
  structural recursions.  The fuel passed by `find_rate` is provably sufficient
  (each loop iteration pops one queue element and a node is enqueued at most
  once), so the fuel-exhaustion branches are unreachable; they are kept only to
  make the functions total.
* Network fetches are modelled by passing the outcome each provider call would
  produce (`Except String <snapshot>`) as an argument; the returned `Nat`
  counts how many provider fetches were performed during the call.
* Python exceptions are modelled with `Except String`.
-/

namespace U2C

/-- Mirrors `providers.CbrRates`: `eur_rub`, `usd_rub` rate fields plus the
retrieval timestamp `as_of`. -/
structure CbrRates where
  eur_rub : ℚ
  usd_rub : ℚ
  as_of : ℤ
deriving DecidableEq

/-- Mirrors `providers.NbuRates`. -/
structure NbuRates where
  eur_uah : ℚ
  usd_uah : ℚ
  as_of : ℤ
deriving DecidableEq

/-- Mirrors `providers.BinanceRates`. -/
structure BinanceRates where
  eur_usdt : ℚ
  usdt_uah : ℚ
  usdt_usd : ℚ
  as_of : ℤ
deriving DecidableEq

/-- Mirrors `service.RateResult`: composed rate, the hop list `(from, to,
source)`, and the as-of instant. -/
structure RateResult where
  rate : ℚ
  path : List (String × String × String)
  as_of : ℤ
deriving DecidableEq

/-- Adjacency list of one node.  In `service.py` the edge payload is the pair
`(rate, source)`; the graph-traversal code never inspects the payload, so the
graph definitions are parametric in the payload type `β` and the builder
instantiates `β := ℚ × String`. -/
abbrev Adj (β : Type) : Type := List (String × β)

/-- Mirrors the Python `Dict[str, List[Tuple[str, float, str]]]` as an
association list in key-insertion order. -/
abbrev RateGraph (β : Type) : Type := List (String × Adj β)

/-- Mirrors the BFS predecessor dict `prev: dict[str, tuple[str, float, str]]`,
keyed by the discovered node, holding `(parent, payload)`. -/
abbrev PrevMap (β : Type) : Type := List (String × String × β)

/-- Python dict assignment `m[k] = v` on an association list: replace in place
if the key exists, otherwise append at the end (dict insertion order). -/
def dictSet {α : Type} : List (String × α) → String → α → List (String × α)
  | [], k, v => [(k, v)]
  | (k', v') :: rest, k, v =>
    if k' = k then (k, v) :: rest else (k', v') :: dictSet rest k v

/-- Python `graph.get(cur, [])`. -/
def getD {β : Type} (g : RateGraph β) (a : String) : Adj β :=
  (List.lookup a g).getD []

/-- Mirrors the local `add_edge` closure of `RateService._build_graph`:
`g.setdefault(a, []).append((b, r, src))`. -/
def add_edge {β : Type} : RateGraph β → String → String → β → RateGraph β
  | [], a, b, d => [(a, [(b, d)])]
  | (k, es) :: rest, a, b, d =>
    if k = a then (k, es ++ [(b, d)]) :: rest
    else (k, es) :: add_edge rest a b d

/-- Mirrors `RateService._build_graph` line by line (same edge insertion
order).  `1.0 / x` becomes rational `1 / x`; the Python code would raise
`ZeroDivisionError` on a zero rate field, which never happens for real
provider data, and the claims about the builder all assume nonzero fields. -/
def build_graph (cbr : CbrRates) (nbu : NbuRates) (bnc : BinanceRates) :
    RateGraph (ℚ × String) :=
  -- CBR (official)
  let g : RateGraph (ℚ × String) := []
  let g := add_edge g "EUR" "RUB" (cbr.eur_rub, "CBR")
  let g := add_edge g "RUB" "EUR" (1 / cbr.eur_rub, "CBR")
  let g := add_edge g "USD" "RUB" (cbr.usd_rub, "CBR")
  let g := add_edge g "RUB" "USD" (1 / cbr.usd_rub, "CBR")
  -- NBU (official)
  let g := add_edge g "EUR" "UAH" (nbu.eur_uah, "NBU")
  let g := add_edge g "UAH" "EUR" (1 / nbu.eur_uah, "NBU")
  let g := add_edge g "USD" "UAH" (nbu.usd_uah, "NBU")
  let g := add_edge g "UAH" "USD" (1 / nbu.usd_uah, "NBU")
  -- Derived UAH<->RUB using EUR as bridge (still official sources)
  let uah_rub := cbr.eur_rub / nbu.eur_uah
  let g := add_edge g "UAH" "RUB" (uah_rub, "CBR+NBU")
  let g := add_edge g "RUB" "UAH" (1 / uah_rub, "CBR+NBU")
  -- Binance spot public prices for USDT crosses
  let g := add_edge g "EUR" "USDT" (bnc.eur_usdt, "Binance")
  let g := add_edge g "USDT" "EUR" (1 / bnc.eur_usdt, "Binance")
  let g := add_edge g "USDT" "UAH" (bnc.usdt_uah, "Binance")
  let g := add_edge g "UAH" "USDT" (1 / bnc.usdt_uah, "Binance")
  let g := add_edge g "USDT" "USD" (bnc.usdt_usd, "Binance")
  let g := add_edge g "USD" "USDT" (1 / bnc.usdt_usd, "Binance")
  g

/-- Mirrors the inner `for nxt, r, src in graph.get(cur, [])` loop of the BFS
in `RateService._find_rate`: skip visited targets, otherwise record the
predecessor, mark visited, break with `True` when the destination was found
(the Python code then also clears the queue), else append to the queue. -/
def scanEdges {β : Type} (cur tgt : String) :
    Adj β → PrevMap β → List String → List String →
    PrevMap β × List String × List String × Bool
  | [], prev, visited, qAdd => (prev, visited, qAdd, false)
  | (nxt, d) :: rest, prev, visited, qAdd =>
    if nxt ∈ visited then scanEdges cur tgt rest prev visited qAdd
    else
      let prev' := dictSet prev nxt (cur, d)
      let visited' := nxt :: visited
      if nxt = tgt then (prev', visited', qAdd, true)
      else scanEdges cur tgt rest prev' visited' (qAdd ++ [nxt])

/-- Mirrors the outer `while q:` loop of the BFS.  `fuel` makes the loop a
total function; `find_rate` passes `totalEdges g + 1`, which is provably never
exhausted because each iteration pops one queue element and every enqueue is
guarded by first discovery. -/
def bfsLoop {β : Type} (g : RateGraph β) (tgt : String) :
    Nat → List String → PrevMap β → List String → PrevMap β
  | _, [], prev, _ => prev
  | 0, _ :: _, prev, _ => prev
  | fuel + 1, cur :: q, prev, visited =>
    match scanEdges cur tgt (getD g cur) prev visited [] with
    | (prev', _, _, true) => prev'
    | (prev', visited', qAdd, false) => bfsLoop g tgt fuel (q ++ qAdd) prev' visited'

/-- Total number of edges of the graph; used as the BFS fuel bound. -/
def totalEdges {β : Type} (g : RateGraph β) : Nat :=
  (g.map (fun kv => kv.2.length)).sum

/-- Mirrors the reconstruction loop `while cur != frm:` of
`RateService._find_rate`: walk predecessors from the destination, appending
`(p, cur, src)` and multiplying the rate.  `none` models the unreachable
failure modes (a missing predecessor key would be a Python `KeyError`, fuel
exhaustion would be divergence); both are proved impossible for the
predecessor maps the BFS produces. -/
def reconstruct (prev : PrevMap (ℚ × String)) (frm : String) :
    Nat → String → ℚ → List (String × String × String) →
    Option (ℚ × List (String × String × String))
  | 0, _, _, _ => none
  | fuel + 1, cur, rate, acc =>
    if cur = frm then some (rate, acc)
    else
      match List.lookup cur prev with
      | none => none
      | some (p, r, src) => reconstruct prev frm fuel p (rate * r) (acc ++ [(p, cur, src)])

/-- Error message of the `raise RuntimeError(...)` in `_find_rate`. -/
def noPathMsg (frm tgt : String) : String :=
  "No conversion path from " ++ frm ++ " to " ++ tgt

/-- Mirrors `RateService._find_rate`.  `lastSourcesAsOf` is the
`self._last_sources_as_of` field read by the method; `now` is the `now`
argument.  Returns `(rate, path, as_of)` or the error the Python code raises. -/
def find_rate (g : RateGraph (ℚ × String)) (frm tgt : String)
    (lastSourcesAsOf : Option ℤ) (now : ℤ) :
    Except String (ℚ × List (String × String × String) × ℤ) :=
  if frm = tgt then Except.ok (1, [], lastSourcesAsOf.getD now)
  else
    let prev := bfsLoop g tgt (totalEdges g + 1) [frm] [] [frm]
    if (List.lookup tgt prev).isSome then
      match reconstruct prev frm (prev.length + 1) tgt 1 [] with
      | some (rate, path_edges) =>
          Except.ok (rate, path_edges.reverse, lastSourcesAsOf.getD now)
      | none => Except.error "KeyError"   -- unreachable for BFS predecessor maps
    else Except.error (noPathMsg frm tgt)

/-- Mirrors the mutable state of `RateService`: the TTL, the cache dict
(key `"FRM->TO"`, value `(expiry, RateResult)`) and `_last_sources_as_of`. -/
structure RateService where
  ttl : ℤ
  cache : List (String × (ℤ × RateResult))
  lastSourcesAsOf : Option ℤ
deriving DecidableEq

/-- Mirrors `RateService._fetch_all`: the three provider calls run
sequentially; the first failure propagates at once.  The three `Except`
arguments are the outcomes the network would produce for this call; the `Nat`
component counts how many provider fetches were performed.  On success
`_last_sources_as_of` is set to the latest of the three snapshot timestamps. -/
def fetch_all (st : RateService) (cbrR : Except String CbrRates)
    (nbuR : Except String NbuRates) (bncR : Except String BinanceRates) :
    Except String (CbrRates × NbuRates × BinanceRates) × RateService × Nat :=
  match cbrR with
  | Except.error e => (Except.error e, st, 1)
  | Except.ok cbr =>
    match nbuR with
    | Except.error e => (Except.error e, st, 2)
    | Except.ok nbu =>
      match bncR with
      | Except.error e => (Except.error e, st, 3)
      | Except.ok bnc =>
        (Except.ok (cbr, nbu, bnc),
         { st with lastSourcesAsOf := some (max (max cbr.as_of nbu.as_of) bnc.as_of) },
         3)

/-- Python `str.upper()`, written by structural recursion over the character
list so that it evaluates by kernel reduction (`String.toUpper` is defined via
well-founded recursion and does not). -/
def upper (s : String) : String := ⟨s.data.map Char.toUpper⟩

/-- The cache-miss fall-through of `RateService.get_rate`: fetch all three
providers, build the graph, resolve the path, store the result under `key`
with expiry `now + ttl`.  Factored out because Python reaches the same code
from both the absent-entry and the stale-entry case. -/
def get_rate_refresh (st : RateService) (cbrR : Except String CbrRates)
    (nbuR : Except String NbuRates) (bncR : Except String BinanceRates)
    (now : ℤ) (key frm tgt : String) :
    Except String RateResult × RateService × Nat :=
  match fetch_all st cbrR nbuR bncR with
  | (Except.error e, st', n) => (Except.error e, st', n)
  | (Except.ok (cbr, nbu, bnc), st', n) =>
    match find_rate (build_graph cbr nbu bnc) frm tgt st'.lastSourcesAsOf now with
    | Except.error e => (Except.error e, st', n)
    | Except.ok (rate, path, asOf) =>
      let result : RateResult := ⟨rate, path, asOf⟩
      (Except.ok result,
       { st' with cache := dictSet st'.cache key (now + st'.ttl, result) }, n)

/-- Mirrors `RateService.get_rate`: normalize case, build the key, return the
cached result when the entry exists and `cached[0] > now`, otherwise refresh. -/
def get_rate (st : RateService) (cbrR : Except String CbrRates)
    (nbuR : Except String NbuRates) (bncR : Except String BinanceRates)
    (now : ℤ) (frm tgt : String) :
    Except String RateResult × RateService × Nat :=
  let frm' := upper frm
  let tgt' := upper tgt
  let key := frm' ++ "->" ++ tgt'
  match List.lookup key st.cache with
  | some cached =>
    if cached.1 > now then (Except.ok cached.2, st, 0)
    else get_rate_refresh st cbrR nbuR bncR now key frm' tgt'
  | none => get_rate_refresh st cbrR nbuR bncR now key frm' tgt'

/-! Specification-side notions (for stating the claims, not from the source). -/

/-- Reachability in `n` hops along graph edges, ignoring edge payloads. -/
inductive Reaches {β : Type} (g : RateGraph β) : String → String → Nat → Prop
  | refl (a : String) : Reaches g a a 0
  | step {a b c : String} {n : Nat} {d : β} :
      (b, d) ∈ getD g a → Reaches g b c n → Reaches g a c (n + 1)

/-- The hop list is a chain of actual graph edges from `a` to `b`, and the
rate `q` is the product of the factors of those edges. -/
def PathFactors (g : RateGraph (ℚ × String)) :
    String → List (String × String × String) → String → ℚ → Prop
  | a, [], b, q => a = b ∧ q = 1
  | a, (x, y, s) :: rest, b, q =>
      x = a ∧ ∃ r q', (y, (r, s)) ∈ getD g a ∧ PathFactors g y rest b q' ∧ q = r * q'

/-- Consecutive hops of a conversion path are linked: each hop's target is the
next hop's origin. -/
def chainLinked : List (String × String × String) → Bool
  | [] => true
  | [_] => true
  | h₁ :: h₂ :: rest => (h₁.2.1 == h₂.1) && chainLinked (h₂ :: rest)

/-- No string occurs twice in the list. -/
def nodupBool : List String → Bool
  | [] => true
  | x :: rest => (!(rest.contains x)) && nodupBool rest

/-- Boolean well-formedness check for a returned conversion path: nonempty,
starts at `frm`, ends at `tgt`, consecutive hops are linked, and no currency
occurs twice along the walk. -/
def simpleChainOk (frm tgt : String) (p : List (String × String × String)) : Bool :=
  match p with
  | [] => false
  | (x, _, _) :: _ =>
    (x == frm) && ((p.getLastD (x, x, x)).2.1 == tgt) && chainLinked p &&
    nodupBool (frm :: p.map (fun h => h.2.1))

/-- Projection used to state path-shape facts about `find_rate` results. -/
def pathOf (e : Except String (ℚ × List (String × String × String) × ℤ)) :
    List (String × String × String) :=
  match e with
  | Except.ok x => x.2.1
  | Except.error _ => []

/-- The five currency codes supported by the builder, in key insertion order. -/
def codes : List String := ["EUR", "RUB", "USD", "UAH", "USDT"]

/-- Projection used to state rate facts about `find_rate` results. -/
def rateOf (e : Except String (ℚ × List (String × String × String) × ℤ)) : Option ℚ :=
  match e with
  | Except.ok x => some x.1
  | Except.error _ => none

/-- Keys of an association list. -/
def keysOf {α : Type} (l : List (String × α)) : List String := l.map Prod.fst

/-- Map over the edge payloads of a graph, keeping the structure. -/
def mapGraph {β γ : Type} (f : β → γ) (g : RateGraph β) : RateGraph γ :=
  g.map (fun kv => (kv.1, kv.2.map (fun e => (e.1, f e.2))))

/-- Map over the payloads of a predecessor map. -/
def mapPrev {β γ : Type} (f : β → γ) (prev : PrevMap β) : PrevMap γ :=
  prev.map (fun e => (e.1, e.2.1, f e.2.2))

/-- Pure predecessor walk: the sequence of `(parent, node, payload)` hops the
reconstruction loop visits, from `cur` back to `frm`.  `reconstruct` is proved
equal to a `rate`/`path` fold over this walk. -/
def prevWalk {β : Type} (prev : PrevMap β) (frm : String) :
    Nat → String → Option (List (String × String × β))
  | 0, _ => none
  | fuel + 1, cur =>
    if cur = frm then some []
    else
      match List.lookup cur prev with
      | none => none
      | some (p, d) => (prevWalk prev frm fuel p).map (fun w => (p, cur, d) :: w)

/-- A backward walk through a predecessor map: each hop `(p, c, d)` is an
entry `c ↦ (p, d)` of the map, ending at the root `frm`. -/
inductive WalkFrom {β : Type} (prev : PrevMap β) (frm : String) :
    String → List (String × String × β) → Prop
  | nil : WalkFrom prev frm frm []
  | cons {p c : String} {d : β} {W : List (String × String × β)} :
      (c, (p, d)) ∈ prev → WalkFrom prev frm p W →
      WalkFrom prev frm c ((p, c, d) :: W)

/-- All edge targets of the graph, in insertion order; its length is
`totalEdges` and it bounds the set of nodes the BFS can ever visit. -/
def allTargets {β : Type} (g : RateGraph β) : List String :=
  (g.map (fun kv => kv.2.map Prod.fst)).flatten

/-- Facts about a finished BFS predecessor map: keys are distinct, every
entry is a real graph edge from its parent, parents stay inside the map (or
are the root), and the ghost level function `h` measures exact shortest
distances from the root. -/
structure PrevFacts {β : Type} (g : RateGraph β) (frm : String) (prev : PrevMap β)
    (h : String → Nat) : Prop where
  keys_nodup : (keysOf prev).Nodup
  frm_not_key : frm ∉ keysOf prev
  edges_inv : ∀ e ∈ prev, (e.1, e.2.2) ∈ getD g e.2.1
  parents : ∀ e ∈ prev, e.2.1 = frm ∨ e.2.1 ∈ keysOf prev
  h_frm : h frm = 0
  h_prev : ∀ e ∈ prev, h e.1 = h e.2.1 + 1
  h_min : ∀ b ∈ keysOf prev, ∀ n, Reaches g frm b n → h b ≤ n

/-- Invariant of the BFS work-list loop of `_find_rate`, with ghost level
function `h`: the queue is sorted by level and spans at most two consecutive
levels, every dequeued-and-scanned node has all targets visited, and `h` is a
lower bound on the length of every path from the root to a visited node. -/
structure BfsInv {β : Type} (g : RateGraph β) (frm : String) (q : List String)
    (prev : PrevMap β) (visited : List String) (h : String → Nat) : Prop where
  visited_nodup : visited.Nodup
  visited_iff : ∀ v, v ∈ visited ↔ v = frm ∨ v ∈ keysOf prev
  frm_not_key : frm ∉ keysOf prev
  keys_nodup : (keysOf prev).Nodup
  q_sub : ∀ u ∈ q, u ∈ visited
  q_nodup : q.Nodup
  edges_inv : ∀ e ∈ prev, (e.1, e.2.2) ∈ getD g e.2.1
  parents : ∀ e ∈ prev, e.2.1 ∈ visited
  h_frm : h frm = 0
  h_prev : ∀ e ∈ prev, h e.1 = h e.2.1 + 1
  h_min : ∀ v ∈ visited, ∀ n, Reaches g frm v n → h v ≤ n
  q_sorted : q.Pairwise (fun u w => h u ≤ h w)
  q_span : ∀ u ∈ q, ∀ w ∈ q, h u ≤ h w + 1
  closure : ∀ u ∈ visited, u ∈ q ∨ ∀ e ∈ getD g u, e.1 ∈ visited
  visited_sub : ∀ v ∈ visited, v = frm ∨ v ∈ allTargets g

/-- The same invariant in the middle of scanning the adjacency list of the
dequeued node `cur`: `edges` is the unscanned suffix, `rest` the remaining
queue, `qAdd` the nodes appended so far (all freshly discovered at level
`h cur + 1`). -/
structure MidInv {β : Type} (g : RateGraph β) (frm cur : String) (edges : Adj β)
    (rest qAdd : List String) (prev : PrevMap β) (visited : List String)
    (h : String → Nat) : Prop where
  visited_nodup : visited.Nodup
  visited_iff : ∀ v, v ∈ visited ↔ v = frm ∨ v ∈ keysOf prev
  frm_not_key : frm ∉ keysOf prev
  keys_nodup : (keysOf prev).Nodup
  q_sub : ∀ u ∈ rest ++ qAdd, u ∈ visited
  q_nodup : (rest ++ qAdd).Nodup
  edges_inv : ∀ e ∈ prev, (e.1, e.2.2) ∈ getD g e.2.1
  parents : ∀ e ∈ prev, e.2.1 ∈ visited
  h_frm : h frm = 0
  h_prev : ∀ e ∈ prev, h e.1 = h e.2.1 + 1
  h_min : ∀ v ∈ visited, ∀ n, Reaches g frm v n → h v ≤ n
  cur_visited : cur ∈ visited
  rest_sorted : rest.Pairwise (fun u w => h u ≤ h w)
  rest_lo : ∀ u ∈ rest, h cur ≤ h u
  rest_hi : ∀ u ∈ rest, h u ≤ h cur + 1
  qadd_lvl : ∀ u ∈ qAdd, h u = h cur + 1
  scan_rem : ∀ e ∈ getD g cur, e ∈ edges ∨ e.1 ∈ visited
  closure : ∀ u ∈ visited, u ∈ rest ++ qAdd ∨ u = cur ∨ ∀ e ∈ getD g u, e.1 ∈ visited
  visited_sub : ∀ v ∈ visited, v = frm ∨ v ∈ allTargets g

/-- Normal form of the builder's output graph: the explicit adjacency lists in
insertion order.  `build_graph_eq` below proves `build_graph` produces it. -/
def graphNF (cbr : CbrRates) (nbu : NbuRates) (bnc : BinanceRates) :
    RateGraph (ℚ × String) :=
  [("EUR", [("RUB", (cbr.eur_rub, "CBR")), ("UAH", (nbu.eur_uah, "NBU")),
            ("USDT", (bnc.eur_usdt, "Binance"))]),
   ("RUB", [("EUR", (1 / cbr.eur_rub, "CBR")), ("USD", (1 / cbr.usd_rub, "CBR")),
            ("UAH", (1 / (cbr.eur_rub / nbu.eur_uah), "CBR+NBU"))]),
   ("USD", [("RUB", (cbr.usd_rub, "CBR")), ("UAH", (nbu.usd_uah, "NBU")),
            ("USDT", (1 / bnc.usdt_usd, "Binance"))]),
   ("UAH", [("EUR", (1 / nbu.eur_uah, "NBU")), ("USD", (1 / nbu.usd_uah, "NBU")),
            ("RUB", (cbr.eur_rub / nbu.eur_uah, "CBR+NBU")),
            ("USDT", (1 / bnc.usdt_uah, "Binance"))]),
   ("USDT", [("EUR", (1 / bnc.eur_usdt, "Binance")), ("UAH", (bnc.usdt_uah, "Binance")),
             ("USD", (bnc.usdt_usd, "Binance"))])]

/-- CBR snapshot of the spec §8 concrete scenario: EUR→RUB 100, USD→RUB 90. -/
def specCbr : CbrRates := ⟨100, 90, 0⟩

/-- NBU snapshot of the spec §8 concrete scenario: EUR→UAH 45, USD→UAH 40. -/
def specNbu : NbuRates := ⟨45, 40, 0⟩

/-- Binance snapshot of the spec §8 concrete scenario: EUR→USDT 1.1,
USDT→UAH 41, USDT→USD 1. -/
def specBnc : BinanceRates := ⟨11 / 10, 41, 1, 0⟩

/-- Small arbitrary snapshots used by witness theorems. -/
def exCbr : CbrRates := ⟨2, 3, 5⟩

/-- Small arbitrary NBU snapshot used by witness theorems. -/
def exNbu : NbuRates := ⟨5, 7, 11⟩

/-- Small arbitrary Binance snapshot used by witness theorems. -/
def exBnc : BinanceRates := ⟨13, 17, 19, 4⟩

/-- Service state with an empty cache used by witness theorems. -/
def emptyService : RateService := ⟨600, [], none⟩

/-- Product of two optional rates; `some` only when both resolutions
succeeded.  Used to state the invertibility claim. -/
def mulRate (x y : Option ℚ) : Option ℚ :=
  match x, y with
  | some a, some b => some (a * b)
  | _, _ => none

/-- A concrete cached result used by witness theorems. -/
def exResult : RateResult := ⟨2, [("EUR", "UAH", "NBU")], 1⟩

/-- Service state holding one fresh cache entry, used by witness theorems. -/
def exService : RateService := ⟨600, [("USD->EUR", (10, exResult))], none⟩

/-! Helper lemmas. -/

/-- Unfolding lemma for `get_rate` on a fresh cache hit. -/
theorem get_rate_hit (st : RateService) (cbrR : Except String CbrRates)
    (nbuR : Except String NbuRates) (bncR : Except String BinanceRates)
    (now : ℤ) (frm tgt : String) (exp : ℤ) (res : RateResult)
    (hc : List.lookup (upper frm ++ "->" ++ upper tgt) st.cache = some (exp, res))
    (hlt : now < exp) :
    get_rate st cbrR nbuR bncR now frm tgt = (Except.ok res, st, 0) := by
  simp only [get_rate, hc, hlt, gt_iff_lt, if_true, ite_true]

/-- Unfolding lemma for `get_rate` when the entry is absent or stale: the call
runs the refresh procedure. -/
theorem get_rate_stale (st : RateService) (cbrR : Except String CbrRates)
    (nbuR : Except String NbuRates) (bncR : Except String BinanceRates)
    (now : ℤ) (frm tgt : String)
    (hmiss : ∀ c, List.lookup (upper frm ++ "->" ++ upper tgt) st.cache = some c →
      c.1 ≤ now) :
    get_rate st cbrR nbuR bncR now frm tgt =
      get_rate_refresh st cbrR nbuR bncR now (upper frm ++ "->" ++ upper tgt)
        (upper frm) (upper tgt) := by
  simp only [get_rate]
  cases hl : List.lookup (upper frm ++ "->" ++ upper tgt) st.cache with
  | none => rfl
  | some c =>
    have := hmiss c hl
    simp [not_lt.mpr this]

/-- On success with all three fetches succeeding, the refresh performs exactly
three provider fetches, whatever the resolution outcome. -/
theorem get_rate_refresh_count (st : RateService) (cbr : CbrRates) (nbu : NbuRates)
    (bnc : BinanceRates) (now : ℤ) (key frm tgt : String) :
    (get_rate_refresh st (Except.ok cbr) (Except.ok nbu) (Except.ok bnc)
      now key frm tgt).2.2 = 3 := by
  simp only [get_rate_refresh, fetch_all]
  split <;> rfl

theorem build_graph_eq (cbr : CbrRates) (nbu : NbuRates) (bnc : BinanceRates) :
    build_graph cbr nbu bnc = graphNF cbr nbu bnc := by
  simp [build_graph, add_edge, graphNF]

/-! Claim C2: the spec §8 concrete scenario. -/

/-- Claim C2, counterexample: with the spec scenario snapshots, resolving
USD→EUR does not return a single-hop path (there is no direct USD→EUR edge;
the actual path is the two-hop USD→RUB→EUR chain), so the claim as stated is
false at this input. -/
theorem c2_usd_eur_not_single_hop :
    (pathOf (find_rate (build_graph specCbr specNbu specBnc) "USD" "EUR" none 0)).length ≠ 1 := by
  decide

/-- Claim C2 (amended): with the spec scenario snapshots, resolving USD→EUR
returns rate 90/100 = 0.9 via the two CBR-sourced hops USD→RUB and RUB→EUR,
and resolving UAH→RUB returns rate 100/45 via the single synthetic bridge edge
labelled "CBR+NBU". -/
theorem c2_spec_scenario :
    find_rate (build_graph specCbr specNbu specBnc) "USD" "EUR" none 0 =
      Except.ok (90 / 100, [("USD", "RUB", "CBR"), ("RUB", "EUR", "CBR")], 0) ∧
    find_rate (build_graph specCbr specNbu specBnc) "UAH" "RUB" none 0 =
      Except.ok (100 / 45, [("UAH", "RUB", "CBR+NBU")], 0) := by
  rw [build_graph_eq]
  constructor <;>
  · simp only [graphNF, specCbr, specNbu, specBnc, find_rate, bfsLoop, scanEdges, getD, dictSet,
      reconstruct, totalEdges, List.lookup, List.map, List.sum_cons, List.sum_nil,
      List.length, List.mem_cons, List.mem_singleton, List.not_mem_nil,
      String.reduceBEq, String.reduceEq, reduceIte, Option.getD, Option.isSome,
      List.append_nil, List.nil_append, List.cons_append, List.reverse, List.reverseAux]
    norm_num

/-! Claim C7: unreached destination yields the no-path error. -/

/-- Claim C7: if the destination is never reached by the breadth-first search
(it has no entry in the predecessor map the BFS produces), the resolver fails
with the error message naming both the source and the destination codes, and
no rate value is returned. -/
theorem find_rate_no_path_error (g : RateGraph (ℚ × String)) (frm tgt : String)
    (l : Option ℤ) (now : ℤ) (hne : frm ≠ tgt)
    (hmiss : List.lookup tgt (bfsLoop g tgt (totalEdges g + 1) [frm] [] [frm]) = none) :
    find_rate g frm tgt l now =
      Except.error ("No conversion path from " ++ frm ++ " to " ++ tgt) := by
  simp [find_rate, hne, hmiss, noPathMsg]

/-- Witness for C7 at a concrete input: the empty graph reaches nothing. -/
theorem find_rate_no_path_error_witness :
    find_rate [] "USD" "EUR" none 0 =
      Except.error ("No conversion path from " ++ "USD" ++ " to " ++ "EUR") :=
  find_rate_no_path_error [] "USD" "EUR" none 0 (by decide) (by decide)

/-! Claim C6: a failed refresh leaves the cache untouched. -/

/-- Helper: the refresh path never changes the cache when it fails. -/
theorem get_rate_refresh_error_cache (st : RateService) (cbrR : Except String CbrRates)
    (nbuR : Except String NbuRates) (bncR : Except String BinanceRates)
    (now : ℤ) (key frm tgt : String) (e : String) (st' : RateService) (n : Nat)
    (h : get_rate_refresh st cbrR nbuR bncR now key frm tgt = (Except.error e, st', n)) :
    st'.cache = st.cache := by
  unfold get_rate_refresh fetch_all at h
  cases cbrR <;> cases nbuR <;> cases bncR <;> simp_all
  split at h <;> simp_all
  obtain ⟨-, h, -⟩ := h
  rw [← h]

/-- Claim C6: whenever `get_rate` returns an error (a provider fetch failed or
path resolution failed), the cache mapping after the call is exactly the cache
mapping before it. -/
theorem get_rate_error_preserves_cache (st : RateService) (cbrR : Except String CbrRates)
    (nbuR : Except String NbuRates) (bncR : Except String BinanceRates)
    (now : ℤ) (frm tgt : String) (e : String) (st' : RateService) (n : Nat)
    (h : get_rate st cbrR nbuR bncR now frm tgt = (Except.error e, st', n)) :
    st'.cache = st.cache := by
  rcases hl : List.lookup (upper frm ++ "->" ++ upper tgt) st.cache with - | c
  · have heq := get_rate_stale st cbrR nbuR bncR now frm tgt
      (by intro c' hcl; rw [hl] at hcl; cases hcl)
    rw [heq] at h
    exact get_rate_refresh_error_cache _ _ _ _ _ _ _ _ _ _ _ h
  · by_cases hfresh : now < c.1
    · have heq := get_rate_hit st cbrR nbuR bncR now frm tgt c.1 c.2 (by rw [hl]) hfresh
      rw [heq] at h
      exact absurd h (by simp)
    · have heq := get_rate_stale st cbrR nbuR bncR now frm tgt
        (by intro c' hcl; rw [hl] at hcl; cases hcl; exact not_lt.mp hfresh)
      rw [heq] at h
      exact get_rate_refresh_error_cache _ _ _ _ _ _ _ _ _ _ _ h

/-- Witness for C6 at a concrete input: a failing CBR fetch on a state with a
non-empty cache. -/
theorem get_rate_error_preserves_cache_witness :
    (get_rate exService (Except.error "boom") (Except.ok exNbu) (Except.ok exBnc)
      20 "USD" "EUR").2.1.cache = exService.cache :=
  get_rate_error_preserves_cache exService (Except.error "boom") (Except.ok exNbu)
    (Except.ok exBnc) 20 "USD" "EUR" "boom" _ 1 rfl

/-! Claim C5: cache freshness semantics. -/

/-- Claim C5: with a cached entry `(exp, res)` for the requested ordered pair,
a call strictly before `exp` returns exactly the stored result with no fetch
and no state change; a call at or past `exp` behaves exactly like the absent
case: it runs the refresh procedure, and (when the three fetches succeed)
performs all three provider fetches. -/
theorem get_rate_cache_ttl (st : RateService) (cbrR : Except String CbrRates)
    (nbuR : Except String NbuRates) (bncR : Except String BinanceRates)
    (now : ℤ) (frm tgt : String) (exp : ℤ) (res : RateResult)
    (hc : List.lookup (upper frm ++ "->" ++ upper tgt) st.cache = some (exp, res)) :
    (now < exp →
      get_rate st cbrR nbuR bncR now frm tgt = (Except.ok res, st, 0)) ∧
    (exp ≤ now →
      get_rate st cbrR nbuR bncR now frm tgt =
        get_rate_refresh st cbrR nbuR bncR now
          (upper frm ++ "->" ++ upper tgt) (upper frm) (upper tgt) ∧
      ∀ cbr nbu bnc, cbrR = Except.ok cbr → nbuR = Except.ok nbu →
        bncR = Except.ok bnc →
        (get_rate st cbrR nbuR bncR now frm tgt).2.2 = 3) := by
  constructor
  · intro hlt
    exact get_rate_hit st cbrR nbuR bncR now frm tgt exp res hc hlt
  · intro hge
    have hstale : ∀ c, List.lookup (upper frm ++ "->" ++ upper tgt) st.cache = some c →
        c.1 ≤ now := by
      intro c hcl
      rw [hc] at hcl
      cases hcl
      exact hge
    have heq := get_rate_stale st cbrR nbuR bncR now frm tgt hstale
    refine ⟨heq, ?_⟩
    intro cbr nbu bnc h1 h2 h3
    subst h1; subst h2; subst h3
    rw [heq]
    exact get_rate_refresh_count st cbr nbu bnc now _ _ _

/-- Witness for C5 at a concrete input: a fresh entry is served unchanged. -/
theorem get_rate_cache_ttl_witness :
    get_rate exService (Except.ok exCbr) (Except.ok exNbu) (Except.ok exBnc)
        5 "usd" "eur" = (Except.ok exResult, exService, 0) :=
  (get_rate_cache_ttl exService (Except.ok exCbr) (Except.ok exNbu) (Except.ok exBnc)
    5 "usd" "eur" 10 exResult (by decide)).1 (by decide)

/-! Claim C1: the identity resolution. -/

/-- Claim C1, counterexample: on an empty cache, `get_rate("USD", "USD")`
performs the three provider fetches (the identity shortcut sits inside
`_find_rate`, after the refresh), so "triggers no network calls regardless of
cache state" is false at this input. -/
theorem c1_identity_triggers_fetches :
    (get_rate emptyService (Except.ok exCbr) (Except.ok exNbu) (Except.ok exBnc)
      0 "USD" "USD").2.2 ≠ 0 := by
  decide

/-- Claim C1 (amended): for every supported code X, `get_rate(X, X)` on an
absent or stale cache entry returns rate 1 with an empty path (and the latest
snapshot timestamp as as-of) while performing the three provider fetches; only
a fresh cache hit avoids fetching, returning the stored result unchanged. -/
theorem get_rate_identity (st : RateService) (cbr : CbrRates) (nbu : NbuRates)
    (bnc : BinanceRates) (now : ℤ) (X : String) (hX : X ∈ codes) :
    ((∀ c, List.lookup (upper X ++ "->" ++ upper X) st.cache = some c → c.1 ≤ now) →
      get_rate st (Except.ok cbr) (Except.ok nbu) (Except.ok bnc) now X X =
        (Except.ok ⟨1, [], max (max cbr.as_of nbu.as_of) bnc.as_of⟩,
         ⟨st.ttl,
          dictSet st.cache (upper X ++ "->" ++ upper X)
            (now + st.ttl, ⟨1, [], max (max cbr.as_of nbu.as_of) bnc.as_of⟩),
          some (max (max cbr.as_of nbu.as_of) bnc.as_of)⟩, 3)) ∧
    (∀ exp res, List.lookup (upper X ++ "->" ++ upper X) st.cache = some (exp, res) →
      now < exp →
      get_rate st (Except.ok cbr) (Except.ok nbu) (Except.ok bnc) now X X =
        (Except.ok res, st, 0)) := by
  constructor
  · intro hmiss
    rw [get_rate_stale st _ _ _ now X X hmiss]
    simp only [get_rate_refresh, fetch_all]
    simp [find_rate]
  · intro exp res hc hlt
    exact get_rate_hit st _ _ _ now X X exp res hc hlt

/-- Witness for C1 at a concrete input: identity resolution of USD on an empty
cache fetches three times and returns the unit rate. -/
theorem get_rate_identity_witness :
    get_rate emptyService (Except.ok exCbr) (Except.ok exNbu) (Except.ok exBnc)
        7 "USD" "USD" =
      (Except.ok ⟨1, [], max (max exCbr.as_of exNbu.as_of) exBnc.as_of⟩,
       ⟨emptyService.ttl,
        dictSet emptyService.cache (upper "USD" ++ "->" ++ upper "USD")
          (7 + emptyService.ttl, ⟨1, [], max (max exCbr.as_of exNbu.as_of) exBnc.as_of⟩),
        some (max (max exCbr.as_of exNbu.as_of) exBnc.as_of)⟩, 3) :=
  (get_rate_identity emptyService exCbr exNbu exBnc 7 "USD" (by decide)).1
    (by intro c hcl; cases hcl)

/-! Claim C4: the builder output is edge-inverse-closed and self-loop free. -/

/-- A successful association-list lookup yields a member pair. -/
theorem lookup_mem {α : Type} {l : List (String × α)} {k : String} {v : α}
    (h : List.lookup k l = some v) : (k, v) ∈ l := by
  induction l with
  | nil => simp [List.lookup] at h
  | cons e rest ih =>
    rw [List.lookup] at h
    by_cases he : k = e.1
    · subst he
      simp at h
      subst h
      exact List.mem_cons_self _ _
    · have : (k == e.1) = false := beq_false_of_ne he
      rw [this] at h
      exact List.mem_cons_of_mem _ (ih h)

/-- Claim C4: for nonzero rate fields, the built graph is edge-inverse-closed
(every edge `(a, b, r, s)` has the companion edge `(b, a, 1/r, s)` with the
same source label) and contains no self-loop. -/
theorem build_graph_inverse_closed (cbr : CbrRates) (nbu : NbuRates) (bnc : BinanceRates)
    (h1 : cbr.eur_rub ≠ 0) (h2 : cbr.usd_rub ≠ 0) (h3 : nbu.eur_uah ≠ 0)
    (h4 : nbu.usd_uah ≠ 0) (h5 : bnc.eur_usdt ≠ 0) (h6 : bnc.usdt_uah ≠ 0)
    (h7 : bnc.usdt_usd ≠ 0) :
    ∀ a b r s, (b, (r, s)) ∈ getD (build_graph cbr nbu bnc) a →
      (a, (1 / r, s)) ∈ getD (build_graph cbr nbu bnc) b ∧ a ≠ b := by
  rw [build_graph_eq]
  intro a b r s hmem
  rcases hlook : List.lookup a (graphNF cbr nbu bnc) with - | es
  case none =>
    rw [getD, hlook] at hmem
    simp at hmem
  case some =>
    rw [getD, hlook, Option.getD_some] at hmem
    have hin := lookup_mem hlook
    simp only [graphNF, List.mem_cons, List.not_mem_nil, or_false] at hin
    rcases hin with h | h | h | h | h
    · injection h with ha hes
      subst ha
      subst hes
      simp only [List.mem_cons, List.not_mem_nil, or_false, Prod.mk.injEq] at hmem
      rcases hmem with ⟨rfl, rfl, rfl⟩ | ⟨rfl, rfl, rfl⟩ | ⟨rfl, rfl, rfl⟩ <;>
      exact ⟨by simp [getD, graphNF, List.lookup, one_div_one_div], by decide⟩
    · injection h with ha hes
      subst ha
      subst hes
      simp only [List.mem_cons, List.not_mem_nil, or_false, Prod.mk.injEq] at hmem
      rcases hmem with ⟨rfl, rfl, rfl⟩ | ⟨rfl, rfl, rfl⟩ | ⟨rfl, rfl, rfl⟩ <;>
      exact ⟨by simp [getD, graphNF, List.lookup, one_div_one_div], by decide⟩
    · injection h with ha hes
      subst ha
      subst hes
      simp only [List.mem_cons, List.not_mem_nil, or_false, Prod.mk.injEq] at hmem
      rcases hmem with ⟨rfl, rfl, rfl⟩ | ⟨rfl, rfl, rfl⟩ | ⟨rfl, rfl, rfl⟩ <;>
      exact ⟨by simp [getD, graphNF, List.lookup, one_div_one_div], by decide⟩
    · injection h with ha hes
      subst ha
      subst hes
      simp only [List.mem_cons, List.not_mem_nil, or_false, Prod.mk.injEq] at hmem
      rcases hmem with ⟨rfl, rfl, rfl⟩ | ⟨rfl, rfl, rfl⟩ | ⟨rfl, rfl, rfl⟩ | ⟨rfl, rfl, rfl⟩ <;>
      exact ⟨by simp [getD, graphNF, List.lookup, one_div_one_div], by decide⟩
    · injection h with ha hes
      subst ha
      subst hes
      simp only [List.mem_cons, List.not_mem_nil, or_false, Prod.mk.injEq] at hmem
      rcases hmem with ⟨rfl, rfl, rfl⟩ | ⟨rfl, rfl, rfl⟩ | ⟨rfl, rfl, rfl⟩ <;>
      exact ⟨by simp [getD, graphNF, List.lookup, one_div_one_div], by decide⟩

/-- Witness for C4 at a concrete input: the EUR→RUB edge of a concrete graph
has its inverse present. -/
theorem build_graph_inverse_closed_witness :
    ("EUR", (1 / exCbr.eur_rub, "CBR")) ∈
        getD (build_graph exCbr exNbu exBnc) "RUB" ∧ "EUR" ≠ "RUB" :=
  build_graph_inverse_closed exCbr exNbu exBnc
    (by decide) (by decide) (by decide) (by decide) (by decide) (by decide) (by decide)
    "EUR" "RUB" exCbr.eur_rub "CBR" (by decide)

/-! Claim C8: invertibility of direct connections. -/

/-- Claim C8: for positive rate fields, every directly connected pair `(a, b)`
with factor `r` has the inverse edge `(b, a, 1/r)` in the graph, and resolving
a→b and b→a multiplies to exactly 1 (hence within the claimed relative
tolerance of 1e-9; rational arithmetic makes the product exact). -/
theorem build_graph_invertible (cbr : CbrRates) (nbu : NbuRates) (bnc : BinanceRates)
    (h1 : 0 < cbr.eur_rub) (h2 : 0 < cbr.usd_rub) (h3 : 0 < nbu.eur_uah)
    (h4 : 0 < nbu.usd_uah) (h5 : 0 < bnc.eur_usdt) (h6 : 0 < bnc.usdt_uah)
    (h7 : 0 < bnc.usdt_usd) :
    ∀ a b r s, (b, (r, s)) ∈ getD (build_graph cbr nbu bnc) a →
      (a, (1 / r, s)) ∈ getD (build_graph cbr nbu bnc) b ∧
      mulRate (rateOf (find_rate (build_graph cbr nbu bnc) a b none 0))
        (rateOf (find_rate (build_graph cbr nbu bnc) b a none 0)) = some 1 ∧
      ∀ q, mulRate (rateOf (find_rate (build_graph cbr nbu bnc) a b none 0))
          (rateOf (find_rate (build_graph cbr nbu bnc) b a none 0)) = some q →
        |q - 1| ≤ 1 / 1000000000 := by
  have n1 := ne_of_gt h1
  have n2 := ne_of_gt h2
  have n3 := ne_of_gt h3
  have n4 := ne_of_gt h4
  have n5 := ne_of_gt h5
  have n6 := ne_of_gt h6
  have n7 := ne_of_gt h7
  rw [build_graph_eq]
  intro a b r s hmem
  rcases hlook : List.lookup a (graphNF cbr nbu bnc) with - | es
  case none =>
    rw [getD, hlook] at hmem
    simp at hmem
  case some =>
    rw [getD, hlook, Option.getD_some] at hmem
    have hin := lookup_mem hlook
    simp only [graphNF, List.mem_cons, List.not_mem_nil, or_false] at hin
    have step : ∀ a b r s, (a, (1 / r, s)) ∈ getD (graphNF cbr nbu bnc) b →
        mulRate (rateOf (find_rate (graphNF cbr nbu bnc) a b none 0))
          (rateOf (find_rate (graphNF cbr nbu bnc) b a none 0)) = some 1 →
        (a, (1 / r, s)) ∈ getD (graphNF cbr nbu bnc) b ∧
        mulRate (rateOf (find_rate (graphNF cbr nbu bnc) a b none 0))
          (rateOf (find_rate (graphNF cbr nbu bnc) b a none 0)) = some 1 ∧
        ∀ q, mulRate (rateOf (find_rate (graphNF cbr nbu bnc) a b none 0))
            (rateOf (find_rate (graphNF cbr nbu bnc) b a none 0)) = some q →
          |q - 1| ≤ 1 / 1000000000 := by
      intro a b r s hmem hq
      refine ⟨hmem, hq, ?_⟩
      intro q hq'
      rw [hq] at hq'
      cases hq'
      norm_num
    rcases hin with h | h | h | h | h
    · injection h with ha hes
      subst ha
      subst hes
      simp only [List.mem_cons, List.not_mem_nil, or_false, Prod.mk.injEq] at hmem
      rcases hmem with ⟨rfl, rfl, rfl⟩ | ⟨rfl, rfl, rfl⟩ | ⟨rfl, rfl, rfl⟩ <;>
        refine step _ _ _ _ (by simp [getD, graphNF, List.lookup, one_div_one_div]) ?_ <;>
        · simp only [graphNF, find_rate, bfsLoop, scanEdges, getD, dictSet,
            reconstruct, totalEdges, List.lookup, List.map, List.sum_cons, List.sum_nil,
            List.length, List.mem_cons, List.mem_singleton, List.not_mem_nil,
            String.reduceBEq, String.reduceEq, reduceIte, Option.getD, Option.isSome,
            List.append_nil, List.nil_append, List.cons_append, List.reverse,
            List.reverseAux, rateOf, mulRate]
          field_simp
    · injection h with ha hes
      subst ha
      subst hes
      simp only [List.mem_cons, List.not_mem_nil, or_false, Prod.mk.injEq] at hmem
      rcases hmem with ⟨rfl, rfl, rfl⟩ | ⟨rfl, rfl, rfl⟩ | ⟨rfl, rfl, rfl⟩ <;>
        refine step _ _ _ _ (by simp [getD, graphNF, List.lookup, one_div_one_div]) ?_ <;>
        · simp only [graphNF, find_rate, bfsLoop, scanEdges, getD, dictSet,
            reconstruct, totalEdges, List.lookup, List.map, List.sum_cons, List.sum_nil,
            List.length, List.mem_cons, List.mem_singleton, List.not_mem_nil,
            String.reduceBEq, String.reduceEq, reduceIte, Option.getD, Option.isSome,
            List.append_nil, List.nil_append, List.cons_append, List.reverse,
            List.reverseAux, rateOf, mulRate]
          field_simp
    · injection h with ha hes
      subst ha
      subst hes
      simp only [List.mem_cons, List.not_mem_nil, or_false, Prod.mk.injEq] at hmem
      rcases hmem with ⟨rfl, rfl, rfl⟩ | ⟨rfl, rfl, rfl⟩ | ⟨rfl, rfl, rfl⟩ <;>
        refine step _ _ _ _ (by simp [getD, graphNF, List.lookup, one_div_one_div]) ?_ <;>
        · simp only [graphNF, find_rate, bfsLoop, scanEdges, getD, dictSet,
            reconstruct, totalEdges, List.lookup, List.map, List.sum_cons, List.sum_nil,
            List.length, List.mem_cons, List.mem_singleton, List.not_mem_nil,
            String.reduceBEq, String.reduceEq, reduceIte, Option.getD, Option.isSome,
            List.append_nil, List.nil_append, List.cons_append, List.reverse,
            List.reverseAux, rateOf, mulRate]
          field_simp
    · injection h with ha hes
      subst ha
      subst hes
      simp only [List.mem_cons, List.not_mem_nil, or_false, Prod.mk.injEq] at hmem
      rcases hmem with ⟨rfl, rfl, rfl⟩ | ⟨rfl, rfl, rfl⟩ | ⟨rfl, rfl, rfl⟩ | ⟨rfl, rfl, rfl⟩ <;>
        refine step _ _ _ _ (by simp [getD, graphNF, List.lookup, one_div_one_div]) ?_ <;>
        · simp only [graphNF, find_rate, bfsLoop, scanEdges, getD, dictSet,
            reconstruct, totalEdges, List.lookup, List.map, List.sum_cons, List.sum_nil,
            List.length, List.mem_cons, List.mem_singleton, List.not_mem_nil,
            String.reduceBEq, String.reduceEq, reduceIte, Option.getD, Option.isSome,
            List.append_nil, List.nil_append, List.cons_append, List.reverse,
            List.reverseAux, rateOf, mulRate]
          field_simp
    · injection h with ha hes
      subst ha
      subst hes
      simp only [List.mem_cons, List.not_mem_nil, or_false, Prod.mk.injEq] at hmem
      rcases hmem with ⟨rfl, rfl, rfl⟩ | ⟨rfl, rfl, rfl⟩ | ⟨rfl, rfl, rfl⟩ <;>
        refine step _ _ _ _ (by simp [getD, graphNF, List.lookup, one_div_one_div]) ?_ <;>
        · simp only [graphNF, find_rate, bfsLoop, scanEdges, getD, dictSet,
            reconstruct, totalEdges, List.lookup, List.map, List.sum_cons, List.sum_nil,
            List.length, List.mem_cons, List.mem_singleton, List.not_mem_nil,
            String.reduceBEq, String.reduceEq, reduceIte, Option.getD, Option.isSome,
            List.append_nil, List.nil_append, List.cons_append, List.reverse,
            List.reverseAux, rateOf, mulRate]
          field_simp

/-- Witness for C8 at a concrete input: the EUR→RUB edge of a concrete graph.
-/
theorem build_graph_invertible_witness :
    ("EUR", (1 / exCbr.eur_rub, "CBR")) ∈
        getD (build_graph exCbr exNbu exBnc) "RUB" ∧
    mulRate (rateOf (find_rate (build_graph exCbr exNbu exBnc) "EUR" "RUB" none 0))
        (rateOf (find_rate (build_graph exCbr exNbu exBnc) "RUB" "EUR" none 0)) =
      some 1 ∧
    ∀ q, mulRate (rateOf (find_rate (build_graph exCbr exNbu exBnc) "EUR" "RUB" none 0))
        (rateOf (find_rate (build_graph exCbr exNbu exBnc) "RUB" "EUR" none 0)) =
          some q →
      |q - 1| ≤ 1 / 1000000000 :=
  build_graph_invertible exCbr exNbu exBnc
    (by norm_num [exCbr]) (by norm_num [exCbr]) (by norm_num [exNbu])
    (by norm_num [exNbu]) (by norm_num [exBnc]) (by norm_num [exBnc])
    (by norm_num [exBnc])
    "EUR" "RUB" exCbr.eur_rub "CBR" (by decide)

/-! Claim C10: the five supported codes are strongly connected. -/

set_option maxHeartbeats 1000000 in
/-- Claim C10: for positive rate fields, every ordered pair of distinct
supported codes resolves successfully (so the no-path error branch cannot fire
for supported currencies), and the returned path is a well-formed simple
chain: it starts at the source, ends at the destination, consecutive hops are
linked, and no currency is visited twice. -/
theorem build_graph_all_pairs_resolve (cbr : CbrRates) (nbu : NbuRates) (bnc : BinanceRates)
    (h1 : 0 < cbr.eur_rub) (h2 : 0 < cbr.usd_rub) (h3 : 0 < nbu.eur_uah)
    (h4 : 0 < nbu.usd_uah) (h5 : 0 < bnc.eur_usdt) (h6 : 0 < bnc.usdt_uah)
    (h7 : 0 < bnc.usdt_usd) :
    ∀ a ∈ codes, ∀ b ∈ codes, a ≠ b →
      simpleChainOk a b (pathOf (find_rate (build_graph cbr nbu bnc) a b none 0)) = true := by
  rw [build_graph_eq]
  intro a ha b hb hne
  fin_cases ha <;> fin_cases hb <;> try exact absurd rfl hne
  all_goals
    simp only [graphNF, find_rate, bfsLoop, scanEdges, getD, dictSet,
      reconstruct, totalEdges, List.lookup, List.map, List.sum_cons, List.sum_nil,
      List.length, List.mem_cons, List.mem_singleton, List.not_mem_nil,
      String.reduceBEq, String.reduceEq, reduceIte, Option.getD, Option.isSome,
      List.append_nil, List.nil_append, List.cons_append, List.reverse,
      List.reverseAux, pathOf]
  all_goals decide

/-- Witness for C10 at a concrete input: EUR→RUB over a concrete graph. -/
theorem build_graph_all_pairs_resolve_witness :
    simpleChainOk "EUR" "RUB"
      (pathOf (find_rate (build_graph exCbr exNbu exBnc) "EUR" "RUB" none 0)) = true :=
  build_graph_all_pairs_resolve exCbr exNbu exBnc
    (by norm_num [exCbr]) (by norm_num [exCbr]) (by norm_num [exNbu])
    (by norm_num [exNbu]) (by norm_num [exBnc]) (by norm_num [exBnc])
    (by norm_num [exBnc])
    "EUR" (by decide) "RUB" (by decide) (by decide)

/-! BFS machinery: association-list and reachability lemmas. -/

theorem allTargets_length {β : Type} (g : RateGraph β) :
    (allTargets g).length = totalEdges g := by
  induction g with
  | nil => rfl
  | cons kv rest ih =>
    simp [allTargets, totalEdges, List.flatten] at ih ⊢
    omega

theorem mem_allTargets {β : Type} {g : RateGraph β} {a : String} {e : String × β}
    (he : e ∈ getD g a) : e.1 ∈ allTargets g := by
  rw [getD] at he
  rcases hl : List.lookup a g with - | es
  · rw [hl] at he
    simp at he
  · rw [hl, Option.getD_some] at he
    have hmem := lookup_mem hl
    simp only [allTargets, List.mem_flatten]
    refine ⟨es.map Prod.fst, ?_, ?_⟩
    · simp only [List.mem_map]
      exact ⟨(a, es), hmem, rfl⟩
    · exact List.mem_map_of_mem _ he

theorem lookup_isSome_iff {α : Type} {l : List (String × α)} {k : String} :
    (List.lookup k l).isSome = true ↔ k ∈ keysOf l := by
  induction l with
  | nil => simp [List.lookup, keysOf]
  | cons e rest ih =>
    rw [List.lookup]
    by_cases he : k = e.1
    · subst he
      simp [keysOf]
    · have : (k == e.1) = false := beq_false_of_ne he
      rw [this]
      simp only [keysOf, List.map_cons, List.mem_cons]
      rw [ih]
      simp [keysOf, he]

theorem lookup_eq_none_iff {α : Type} {l : List (String × α)} {k : String} :
    List.lookup k l = none ↔ k ∉ keysOf l := by
  rw [← lookup_isSome_iff]
  cases List.lookup k l <;> simp

theorem dictSet_fresh {α : Type} {l : List (String × α)} {k : String} (v : α)
    (h : k ∉ keysOf l) : dictSet l k v = l ++ [(k, v)] := by
  induction l with
  | nil => rfl
  | cons e rest ih =>
    simp only [keysOf, List.map_cons, List.mem_cons] at h
    push_neg at h
    rw [dictSet, if_neg (fun hk => h.1 hk.symm), ih (by simpa [keysOf] using h.2)]
    rfl

theorem keysOf_append {α : Type} (l₁ l₂ : List (String × α)) :
    keysOf (l₁ ++ l₂) = keysOf l₁ ++ keysOf l₂ := by
  simp [keysOf]

/-- Lookup of a key in an appended fresh-singleton association list. -/
theorem lookup_append_single {α : Type} (l : List (String × α)) (k k' : String) (v : α) :
    List.lookup k' (l ++ [(k, v)]) =
      ((List.lookup k' l).orElse (fun _ => if k' = k then some v else none)) := by
  induction l with
  | nil =>
    simp [List.lookup]
    by_cases hk : k' = k
    · subst hk
      simp
    · rw [if_neg hk, beq_false_of_ne hk]
  | cons e rest ih =>
    rw [List.cons_append, List.lookup, List.lookup]
    by_cases he : k' = e.1
    · subst he
      simp
    · rw [beq_false_of_ne he]
      exact ih

/-- `Reaches` in zero steps means equality. -/
theorem reaches_zero {β : Type} {g : RateGraph β} {a b : String}
    (h : Reaches g a b 0) : a = b := by
  cases h
  rfl

/-- A nonempty reach decomposes at its last edge. -/
theorem reaches_snoc {β : Type} {g : RateGraph β} {a c : String} {n : Nat}
    (h : Reaches g a c (n + 1)) :
    ∃ b d, Reaches g a b n ∧ (c, d) ∈ getD g b := by
  induction n generalizing a with
  | zero =>
    cases h with
    | step hedge htail =>
      have := reaches_zero htail
      subst this
      exact ⟨a, _, Reaches.refl a, hedge⟩
  | succ m ih =>
    cases h with
    | step hedge htail =>
      obtain ⟨u, d, hu, hlast⟩ := ih htail
      exact ⟨u, d, Reaches.step hedge hu, hlast⟩

/-- If every visited node has all its targets visited, reachability stays
inside the visited set. -/
theorem reach_sub_visited {β : Type} {g : RateGraph β} {visited : List String}
    (hcl : ∀ u ∈ visited, ∀ e ∈ getD g u, e.1 ∈ visited) {a c : String} {n : Nat}
    (ha : a ∈ visited) (h : Reaches g a c n) : c ∈ visited := by
  induction h with
  | refl => exact ha
  | step hedge htail ih => exact ih (hcl _ ha _ hedge)


/-! BFS machinery: invariant conversions. -/

theorem midInv_toPrevFacts {β : Type} {g : RateGraph β} {frm cur : String}
    {edges : Adj β} {rest qAdd : List String} {prev : PrevMap β}
    {visited : List String} {h : String → Nat}
    (m : MidInv g frm cur edges rest qAdd prev visited h) :
    PrevFacts g frm prev h where
  keys_nodup := m.keys_nodup
  frm_not_key := m.frm_not_key
  edges_inv := m.edges_inv
  parents := fun e he => (m.visited_iff e.2.1).mp (m.parents e he)
  h_frm := m.h_frm
  h_prev := m.h_prev
  h_min := fun b hb => m.h_min b ((m.visited_iff b).mpr (Or.inr hb))

theorem bfsInv_toMid {β : Type} {g : RateGraph β} {frm cur : String}
    {rest : List String} {prev : PrevMap β} {visited : List String}
    {h : String → Nat} (inv : BfsInv g frm (cur :: rest) prev visited h) :
    MidInv g frm cur (getD g cur) rest [] prev visited h where
  visited_nodup := inv.visited_nodup
  visited_iff := inv.visited_iff
  frm_not_key := inv.frm_not_key
  keys_nodup := inv.keys_nodup
  q_sub := by
    intro u hu
    rw [List.append_nil] at hu
    exact inv.q_sub u (List.mem_cons_of_mem _ hu)
  q_nodup := by
    rw [List.append_nil]
    exact (List.nodup_cons.mp inv.q_nodup).2
  edges_inv := inv.edges_inv
  parents := inv.parents
  h_frm := inv.h_frm
  h_prev := inv.h_prev
  h_min := inv.h_min
  cur_visited := inv.q_sub cur (List.mem_cons_self _ _)
  rest_sorted := (List.pairwise_cons.mp inv.q_sorted).2
  rest_lo := fun u hu => (List.pairwise_cons.mp inv.q_sorted).1 u hu
  rest_hi := fun u hu =>
    inv.q_span u (List.mem_cons_of_mem _ hu) cur (List.mem_cons_self _ _)
  qadd_lvl := by simp
  scan_rem := fun e he => Or.inl he
  closure := by
    intro u hu
    rcases inv.closure u hu with hq | hcl
    · rcases List.mem_cons.mp hq with rfl | hq
      · exact Or.inr (Or.inl rfl)
      · exact Or.inl (by rw [List.append_nil]; exact hq)
    · exact Or.inr (Or.inr hcl)
  visited_sub := inv.visited_sub

theorem midInv_toBfs {β : Type} {g : RateGraph β} {frm cur : String}
    {rest qAdd : List String} {prev : PrevMap β} {visited : List String}
    {h : String → Nat} (m : MidInv g frm cur [] rest qAdd prev visited h) :
    BfsInv g frm (rest ++ qAdd) prev visited h where
  visited_nodup := m.visited_nodup
  visited_iff := m.visited_iff
  frm_not_key := m.frm_not_key
  keys_nodup := m.keys_nodup
  q_sub := m.q_sub
  q_nodup := m.q_nodup
  edges_inv := m.edges_inv
  parents := m.parents
  h_frm := m.h_frm
  h_prev := m.h_prev
  h_min := m.h_min
  q_sorted := by
    rw [List.pairwise_append]
    refine ⟨m.rest_sorted, ?_, ?_⟩
    · exact List.pairwise_of_forall_mem_list
        (fun u hu w hw => le_of_eq ((m.qadd_lvl u hu).trans (m.qadd_lvl w hw).symm))
    · intro u hu w hw
      exact (m.rest_hi u hu).trans (le_of_eq (m.qadd_lvl w hw).symm)
  q_span := by
    intro u hu w hw
    rcases List.mem_append.mp hu with hu' | hu'
    · rcases List.mem_append.mp hw with hw' | hw'
      · exact (m.rest_hi u hu').trans (Nat.add_le_add_right (m.rest_lo w hw') 1)
      · exact ((m.rest_hi u hu').trans (le_of_eq (m.qadd_lvl w hw').symm)).trans
          (Nat.le_succ _)
    · rcases List.mem_append.mp hw with hw' | hw'
      · rw [m.qadd_lvl u hu']
        exact Nat.add_le_add_right (m.rest_lo w hw') 1
      · rw [m.qadd_lvl u hu', m.qadd_lvl w hw']
        exact Nat.le_succ _
  closure := by
    intro u hu
    rcases m.closure u hu with hq | hc | hcl
    · exact Or.inl hq
    · subst hc
      refine Or.inr ?_
      intro e he
      rcases m.scan_rem e he with h' | h'
      · exact absurd h' (List.not_mem_nil e)
      · exact h'
    · exact Or.inr hcl
  visited_sub := m.visited_sub

theorem bfsInv_init {β : Type} (g : RateGraph β) (frm : String) :
    BfsInv g frm [frm] [] [frm] (fun _ => 0) where
  visited_nodup := List.nodup_singleton frm
  visited_iff := by simp [keysOf]
  frm_not_key := by simp [keysOf]
  keys_nodup := by simp [keysOf]
  q_sub := by simp
  q_nodup := List.nodup_singleton frm
  edges_inv := by simp
  parents := by simp
  h_frm := rfl
  h_prev := by simp
  h_min := by simp
  q_sorted := List.pairwise_singleton _ _
  q_span := by simp
  closure := by simp
  visited_sub := by simp


/-- Frontier bound: while scanning `cur`, any path from the root to an
unvisited node is longer than `cur`'s level. -/
theorem midInv_fresh_level {β : Type} {g : RateGraph β} {frm cur : String}
    {edges : Adj β} {rest qAdd : List String} {prev : PrevMap β}
    {visited : List String} {h : String → Nat}
    (m : MidInv g frm cur edges rest qAdd prev visited h) :
    ∀ n v, Reaches g frm v n → v ∈ visited ∨ h cur + 1 ≤ n := by
  intro n
  induction n with
  | zero =>
    intro v hv
    obtain rfl := reaches_zero hv
    exact Or.inl ((m.visited_iff frm).mpr (Or.inl rfl))
  | succ k ih =>
    intro v hv
    obtain ⟨u, d, hu, hedge⟩ := reaches_snoc hv
    rcases ih u hu with huv | hbound
    · rcases m.closure u huv with hq | hc | hcl
      · have h1 : h cur ≤ h u := by
          rcases List.mem_append.mp hq with hq' | hq'
          · exact m.rest_lo u hq'
          · rw [m.qadd_lvl u hq']
            exact Nat.le_succ _
        have h2 : h u ≤ k := m.h_min u huv k hu
        exact Or.inr (by omega)
      · have h2 : h u ≤ k := m.h_min u huv k hu
        rw [hc] at h2
        exact Or.inr (by omega)
      · exact Or.inl (hcl (v, d) hedge)
    · exact Or.inr (Nat.le_succ_of_le hbound)

/-- Inserting a freshly discovered node preserves the mid-scan invariant,
with the ghost level function extended by `h cur + 1` at the new node. -/
theorem midInv_insert {β : Type} {g : RateGraph β} {frm cur nxt : String} {d : β}
    {edges : Adj β} {rest qAdd : List String} {prev : PrevMap β}
    {visited : List String} {h : String → Nat}
    (hedge : (nxt, d) ∈ getD g cur) (hvis : nxt ∉ visited)
    (m : MidInv g frm cur ((nxt, d) :: edges) rest qAdd prev visited h) :
    MidInv g frm cur edges rest (qAdd ++ [nxt]) (prev ++ [(nxt, (cur, d))])
      (nxt :: visited) (fun v => if v = nxt then h cur + 1 else h v) := by
  have hnk : nxt ∉ keysOf prev := fun hk => hvis ((m.visited_iff nxt).mpr (Or.inr hk))
  have hfrm : frm ≠ nxt := fun hf =>
    hvis (hf ▸ (m.visited_iff frm).mpr (Or.inl rfl))
  have hcur : cur ≠ nxt := fun hc => hvis (hc ▸ m.cur_visited)
  have hvv : ∀ v ∈ visited, v ≠ nxt := fun v hv he => hvis (he ▸ hv)
  have hkeys : ∀ v ∈ keysOf prev, v ≠ nxt :=
    fun v hv => hvv v ((m.visited_iff v).mpr (Or.inr hv))
  refine ⟨?_, ?_, ?_, ?_, ?_, ?_, ?_, ?_, ?_, ?_, ?_, ?_, ?_, ?_, ?_, ?_, ?_, ?_, ?_⟩
  · exact List.nodup_cons.mpr ⟨hvis, m.visited_nodup⟩
  · intro v
    rw [keysOf_append]
    simp only [List.mem_cons, List.mem_append, keysOf, List.map_cons, List.map_nil,
      List.mem_singleton]
    rw [m.visited_iff v]
    simp only [keysOf]
    tauto
  · rw [keysOf_append]
    simp only [List.mem_append, keysOf, List.map_cons, List.map_nil, List.mem_singleton]
    rintro (hf | hf)
    · exact m.frm_not_key hf
    · exact hfrm hf
  · rw [keysOf_append]
    simp only [keysOf, List.map_cons, List.map_nil]
    rw [List.nodup_append]
    refine ⟨m.keys_nodup, List.nodup_singleton _, ?_⟩
    intro v hv
    simp only [List.mem_singleton]
    exact hkeys v hv
  · intro u hu
    simp only [List.mem_append, List.mem_singleton, List.mem_cons,
      List.not_mem_nil, or_false] at hu ⊢
    rcases hu with hu | hu | hu
    · exact Or.inr (m.q_sub u (List.mem_append.mpr (Or.inl hu)))
    · exact Or.inr (m.q_sub u (List.mem_append.mpr (Or.inr hu)))
    · exact Or.inl hu
  · have : rest ++ (qAdd ++ [nxt]) = (rest ++ qAdd) ++ [nxt] :=
      (List.append_assoc rest qAdd [nxt]).symm
    rw [this, List.nodup_append]
    refine ⟨m.q_nodup, List.nodup_singleton _, ?_⟩
    intro v hv
    simp only [List.mem_singleton]
    exact hvv v (m.q_sub v hv)
  · intro e he
    rcases List.mem_append.mp he with he' | he'
    · exact m.edges_inv e he'
    · rw [List.mem_singleton] at he'
      subst he'
      exact hedge
  · intro e he
    rcases List.mem_append.mp he with he' | he'
    · exact List.mem_cons_of_mem _ (m.parents e he')
    · rw [List.mem_singleton] at he'
      subst he'
      exact List.mem_cons_of_mem _ m.cur_visited
  · simp only [if_neg hfrm]
    exact m.h_frm
  · intro e he
    rcases List.mem_append.mp he with he' | he'
    · have h1 : e.1 ≠ nxt := by
        refine hkeys e.1 ?_
        simp only [keysOf, List.mem_map]
        exact ⟨e, he', rfl⟩
      have h2 : e.2.1 ≠ nxt := hvv e.2.1 (m.parents e he')
      simp only [if_neg h1, if_neg h2]
      exact m.h_prev e he'
    · rw [List.mem_singleton] at he'
      subst he'
      rw [if_pos rfl, if_neg hcur]
  · intro v hv n hr
    rcases List.mem_cons.mp hv with rfl | hv'
    · rw [if_pos rfl]
      rcases midInv_fresh_level m n v hr with hc | hc
      · exact absurd hc hvis
      · exact hc
    · simp only [if_neg (hvv v hv')]
      exact m.h_min v hv' n hr
  · exact List.mem_cons_of_mem _ m.cur_visited
  · refine m.rest_sorted.imp_of_mem ?_
    intro a b ha hb hle
    simp only [if_neg (hvv a (m.q_sub a (List.mem_append.mpr (Or.inl ha)))),
      if_neg (hvv b (m.q_sub b (List.mem_append.mpr (Or.inl hb))))]
    exact hle
  · intro u hu
    simp only [if_neg hcur, if_neg (hvv u (m.q_sub u (List.mem_append.mpr (Or.inl hu))))]
    exact m.rest_lo u hu
  · intro u hu
    simp only [if_neg hcur, if_neg (hvv u (m.q_sub u (List.mem_append.mpr (Or.inl hu))))]
    exact m.rest_hi u hu
  · intro u hu
    rcases List.mem_append.mp hu with hu' | hu'
    · simp only [if_neg hcur, if_neg (hvv u (m.q_sub u (List.mem_append.mpr (Or.inr hu'))))]
      exact m.qadd_lvl u hu'
    · rw [List.mem_singleton] at hu'
      subst hu'
      rw [if_pos rfl, if_neg hcur]
  · intro e he
    rcases m.scan_rem e he with hr | hr
    · rcases List.mem_cons.mp hr with rfl | hr'
      · exact Or.inr (List.mem_cons_self _ _)
      · exact Or.inl hr'
    · exact Or.inr (List.mem_cons_of_mem _ hr)
  · intro u hu
    rcases List.mem_cons.mp hu with rfl | hu'
    · refine Or.inl ?_
      rw [← List.append_assoc]
      exact List.mem_append.mpr (Or.inr (List.mem_singleton.mpr rfl))
    · rcases m.closure u hu' with hq | hc | hcl
      · refine Or.inl ?_
        rw [← List.append_assoc]
        exact List.mem_append.mpr (Or.inl hq)
      · exact Or.inr (Or.inl hc)
      · exact Or.inr (Or.inr (fun e he => List.mem_cons_of_mem _ (hcl e he)))
  · intro v hv
    rcases List.mem_cons.mp hv with rfl | hv'
    · exact Or.inr (mem_allTargets hedge)
    · exact m.visited_sub v hv'


/-- Specification of one full scan of `cur`'s adjacency list: if the scan ends
without finding the destination, the mid-scan invariant holds with no edges
left and the queue/visited growth balances; if it breaks on the destination,
the predecessor map satisfies the final facts and holds the destination. -/
theorem scanEdges_spec {β : Type} {g : RateGraph β} {frm tgt cur : String}
    {rest : List String} :
    ∀ (edges : Adj β) (prev : PrevMap β) (visited qAdd : List String)
      (h : String → Nat) (p' : PrevMap β) (v' q' : List String) (f : Bool),
    (∀ e ∈ edges, e ∈ getD g cur) →
    MidInv g frm cur edges rest qAdd prev visited h →
    scanEdges cur tgt edges prev visited qAdd = (p', v', q', f) →
    ∃ h' : String → Nat,
      (f = false →
        MidInv g frm cur [] rest q' p' v' h' ∧
        v'.length + qAdd.length = visited.length + q'.length) ∧
      (f = true → PrevFacts g frm p' h' ∧ tgt ∈ keysOf p') := by
  intro edges
  induction edges with
  | nil =>
    intro prev visited qAdd h p' v' q' f hsub m hout
    rw [scanEdges] at hout
    cases hout
    refine ⟨h, fun _ => ⟨m, rfl⟩, fun hf => Bool.noConfusion hf⟩
  | cons e rem ih =>
    obtain ⟨nxt, d⟩ := e
    intro prev visited qAdd h p' v' q' f hsub m hout
    have hedge : (nxt, d) ∈ getD g cur := hsub _ (List.mem_cons_self _ _)
    simp only [scanEdges] at hout
    by_cases hvis : nxt ∈ visited
    · rw [if_pos hvis] at hout
      have m' : MidInv g frm cur rem rest qAdd prev visited h :=
        { m with
          scan_rem := by
            intro e he
            rcases m.scan_rem e he with hr | hr
            · rcases List.mem_cons.mp hr with rfl | hr'
              · exact Or.inr hvis
              · exact Or.inl hr'
            · exact Or.inr hr }
      exact ih prev visited qAdd h p' v' q' f
        (fun e he => hsub e (List.mem_cons_of_mem _ he)) m' hout
    · rw [if_neg hvis] at hout
      have hnk : nxt ∉ keysOf prev :=
        fun hk => hvis ((m.visited_iff nxt).mpr (Or.inr hk))
      have hds : dictSet prev nxt (cur, d) = prev ++ [(nxt, (cur, d))] :=
        dictSet_fresh _ hnk
      have hins := midInv_insert hedge hvis m
      by_cases htgt : nxt = tgt
      · rw [if_pos htgt] at hout
        rw [hds] at hout
        cases hout
        refine ⟨fun v => if v = nxt then h cur + 1 else h v,
          fun hf => Bool.noConfusion hf, fun _ => ⟨midInv_toPrevFacts hins, ?_⟩⟩
        subst htgt
        rw [keysOf_append]
        exact List.mem_append.mpr (Or.inr (by simp [keysOf]))
      · rw [if_neg htgt] at hout
        rw [hds] at hout
        obtain ⟨h', hfalse, htrue⟩ := ih (prev ++ [(nxt, (cur, d))]) (nxt :: visited)
          (qAdd ++ [nxt]) (fun v => if v = nxt then h cur + 1 else h v)
          p' v' q' f (fun e he => hsub e (List.mem_cons_of_mem _ he)) hins hout
        refine ⟨h', ?_, htrue⟩
        intro hf
        obtain ⟨minv, hlen⟩ := hfalse hf
        refine ⟨minv, ?_⟩
        simp only [List.length_append, List.length_cons, List.length_nil] at hlen
        omega


/-- The visited list never exceeds the root plus all edge targets. -/
theorem bfsInv_visited_le {β : Type} {g : RateGraph β} {frm : String}
    {q : List String} {prev : PrevMap β} {visited : List String} {h : String → Nat}
    (inv : BfsInv g frm q prev visited h) :
    visited.length ≤ totalEdges g + 1 := by
  have hsub : visited ⊆ frm :: allTargets g := by
    intro v hv
    rcases inv.visited_sub v hv with rfl | hv'
    · exact List.mem_cons_self _ _
    · exact List.mem_cons_of_mem _ hv'
  have := (inv.visited_nodup.subperm hsub).length_le
  rw [List.length_cons, allTargets_length] at this
  omega

/-- At an empty queue the invariant yields the final predecessor-map facts and
completeness: every reachable node has been discovered. -/
theorem bfsInv_empty_final {β : Type} {g : RateGraph β} {frm tgt : String}
    {prev : PrevMap β} {visited : List String} {h : String → Nat}
    (inv : BfsInv g frm [] prev visited h) :
    PrevFacts g frm prev h ∧
    ((∃ n, Reaches g frm tgt n) → tgt ≠ frm → tgt ∈ keysOf prev) := by
  constructor
  · exact
      { keys_nodup := inv.keys_nodup
        frm_not_key := inv.frm_not_key
        edges_inv := inv.edges_inv
        parents := fun e he => (inv.visited_iff e.2.1).mp (inv.parents e he)
        h_frm := inv.h_frm
        h_prev := inv.h_prev
        h_min := fun b hb => inv.h_min b ((inv.visited_iff b).mpr (Or.inr hb)) }
  · rintro ⟨n, hn⟩ hne
    have hcl : ∀ u ∈ visited, ∀ e ∈ getD g u, e.1 ∈ visited := by
      intro u hu
      rcases inv.closure u hu with hq | hcl
      · exact absurd hq (List.not_mem_nil u)
      · exact hcl
    have hfrm : frm ∈ visited := (inv.visited_iff frm).mpr (Or.inl rfl)
    have htv : tgt ∈ visited := reach_sub_visited hcl hfrm hn
    rcases (inv.visited_iff tgt).mp htv with rfl | hk
    · exact absurd rfl hne
    · exact hk

/-- Main specification of the BFS work-list loop: starting from an invariant
state with sufficient fuel, the resulting predecessor map satisfies the final
facts, and it contains the destination whenever the destination is reachable
from the root. -/
theorem bfsLoop_spec {β : Type} {g : RateGraph β} {frm tgt : String} :
    ∀ (fuel : Nat) (q : List String) (prev : PrevMap β) (visited : List String)
      (h : String → Nat),
    BfsInv g frm q prev visited h →
    totalEdges g + 1 + q.length ≤ fuel + visited.length →
    ∃ h' : String → Nat,
      PrevFacts g frm (bfsLoop g tgt fuel q prev visited) h' ∧
      ((∃ n, Reaches g frm tgt n) → tgt ≠ frm →
        tgt ∈ keysOf (bfsLoop g tgt fuel q prev visited)) := by
  intro fuel
  induction fuel with
  | zero =>
    intro q prev visited h inv hfuel
    cases q with
    | nil =>
      rw [bfsLoop]
      obtain ⟨hpf, hcomp⟩ := @bfsInv_empty_final β g frm tgt prev visited h inv
      exact ⟨h, hpf, hcomp⟩
    | cons cur rest =>
      have := bfsInv_visited_le inv
      rw [List.length_cons] at hfuel
      omega
  | succ fuel ih =>
    intro q prev visited h inv hfuel
    cases q with
    | nil =>
      rw [bfsLoop]
      obtain ⟨hpf, hcomp⟩ := @bfsInv_empty_final β g frm tgt prev visited h inv
      exact ⟨h, hpf, hcomp⟩
    | cons cur rest =>
      have hmid := bfsInv_toMid inv
      rcases hscan : scanEdges cur tgt (getD g cur) prev visited [] with ⟨p', v', q', f⟩
      obtain ⟨h', hfalse, htrue⟩ := @scanEdges_spec β g frm tgt cur rest (getD g cur)
        prev visited [] h p' v' q' f (fun e he => he) hmid hscan
      cases f with
      | true =>
        obtain ⟨hpf, hkey⟩ := htrue rfl
        refine ⟨h', ?_, ?_⟩
        · rw [bfsLoop, hscan]
          exact hpf
        · intro hreach hne
          rw [bfsLoop, hscan]
          exact hkey
      | false =>
        obtain ⟨minv, hlen⟩ := hfalse rfl
        have inv' := midInv_toBfs minv
        have hloop : bfsLoop g tgt (fuel + 1) (cur :: rest) prev visited =
            bfsLoop g tgt fuel (rest ++ q') p' v' := by
          rw [bfsLoop, hscan]
        rw [hloop]
        refine ih (rest ++ q') p' v' h' inv' ?_
        rw [List.length_append]
        rw [List.length_cons] at hfuel
        simp only [List.length_nil] at hlen
        omega


/-- Unfolding equation: the walk stops at the root. -/
theorem prevWalk_succ_frm {β : Type} (prev : PrevMap β) (frm : String) (fuel : Nat) :
    prevWalk prev frm (fuel + 1) frm = some [] := by
  rw [prevWalk, if_pos rfl]

/-- Unfolding equation: a missing predecessor aborts the walk. -/
theorem prevWalk_succ_none {β : Type} {prev : PrevMap β} {frm cur : String}
    (fuel : Nat) (hne : cur ≠ frm) (hl : List.lookup cur prev = none) :
    prevWalk prev frm (fuel + 1) cur = none := by
  rw [prevWalk, if_neg hne, hl]

/-- Unfolding equation: one walk step through a predecessor entry. -/
theorem prevWalk_succ_some {β : Type} {prev : PrevMap β} {frm cur p : String}
    {d : β} (fuel : Nat) (hne : cur ≠ frm)
    (hl : List.lookup cur prev = some (p, d)) :
    prevWalk prev frm (fuel + 1) cur =
      (prevWalk prev frm fuel p).map (fun w => (p, cur, d) :: w) := by
  rw [prevWalk, if_neg hne, hl]

/-- The predecessor walk is insensitive to extra fuel once it succeeds. -/
theorem prevWalk_mono {β : Type} {prev : PrevMap β} {frm : String} :
    ∀ (fuel fuel' : Nat) (cur : String) (W : List (String × String × β)),
    fuel ≤ fuel' → prevWalk prev frm fuel cur = some W →
    prevWalk prev frm fuel' cur = some W := by
  intro fuel
  induction fuel with
  | zero =>
    intro fuel' cur W hle hw
    rw [prevWalk] at hw
    cases hw
  | succ k ih =>
    intro fuel' cur W hle hw
    obtain ⟨k', rfl⟩ : ∃ k', fuel' = k' + 1 := ⟨fuel' - 1, by omega⟩
    by_cases hf : cur = frm
    · subst hf
      rw [prevWalk_succ_frm] at hw ⊢
      exact hw
    · rcases hl : List.lookup cur prev with - | pd
      · rw [prevWalk_succ_none k hf hl] at hw
        cases hw
      · obtain ⟨p, d⟩ := pd
        rw [prevWalk_succ_some k hf hl] at hw
        rw [prevWalk_succ_some k' hf hl]
        rcases hw' : prevWalk prev frm k p with - | W'
        · rw [hw'] at hw
          cases hw
        · rw [hw'] at hw
          rw [ih k' p W' (by omega) hw']
          exact hw

/-- Under the final predecessor-map facts, the walk from any key terminates,
has length equal to the node's level, forms a backward walk, and visits
pairwise distinct keys of levels at most the starting level. -/
theorem prevWalk_spec {β : Type} {g : RateGraph β} {frm : String}
    {prev : PrevMap β} {h : String → Nat} (pf : PrevFacts g frm prev h) :
    ∀ (k : Nat) (cur : String), h cur = k → (cur = frm ∨ cur ∈ keysOf prev) →
    ∀ fuel, k < fuel →
    ∃ W, prevWalk prev frm fuel cur = some W ∧
      W.length = k ∧ WalkFrom prev frm cur W ∧
      (W.map (fun e => e.2.1)).Nodup ∧
      (∀ e ∈ W, h e.2.1 ≤ k) := by
  intro k
  induction k using Nat.strong_induction_on with
  | _ k ih =>
    intro cur hk hcur fuel hfuel
    obtain ⟨f', rfl⟩ : ∃ f', fuel = f' + 1 := ⟨fuel - 1, by omega⟩
    rcases hcur with rfl | hcur
    · refine ⟨[], prevWalk_succ_frm _ _ _, ?_, WalkFrom.nil, List.nodup_nil, by simp⟩
      have h0 := pf.h_frm
      simp only [List.length_nil]
      omega
    · have hne : cur ≠ frm := by
        intro he
        exact pf.frm_not_key (he ▸ hcur)
      have hsome : (List.lookup cur prev).isSome = true := lookup_isSome_iff.mpr hcur
      rcases hl : List.lookup cur prev with - | pd
      · rw [hl] at hsome
        cases hsome
      · obtain ⟨p, d⟩ := pd
        have hmem : (cur, (p, d)) ∈ prev := lookup_mem hl
        have hlev : h cur = h p + 1 := pf.h_prev _ hmem
        have hp : p = frm ∨ p ∈ keysOf prev := pf.parents _ hmem
        obtain ⟨W', hw', hlen', hwalk', hnodup', hbound'⟩ :=
          ih (h p) (by omega) p rfl hp f' (by omega)
        refine ⟨(p, cur, d) :: W', ?_, ?_, WalkFrom.cons hmem hwalk', ?_, ?_⟩
        · rw [prevWalk_succ_some f' hne hl, hw']
          rfl
        · simp only [List.length_cons]
          omega
        · rw [List.map_cons, List.nodup_cons]
          refine ⟨?_, hnodup'⟩
          intro hin
          rw [List.mem_map] at hin
          obtain ⟨e, heW, hecur⟩ := hin
          have hec : e.2.1 = cur := hecur
          have := hbound' e heW
          rw [hec] at this
          omega
        · intro e he
          rcases List.mem_cons.mp he with rfl | he'
          · show h cur ≤ k
            omega
          · have := hbound' e he'
            omega


/-- Appending one more graph edge to a factored path. -/
theorem pathFactors_append_hop {g : RateGraph (ℚ × String)} {b c : String}
    {r : ℚ} {s : String} (hedge : (c, (r, s)) ∈ getD g b) :
    ∀ {xs : List (String × String × String)} {a : String} {q : ℚ},
    PathFactors g a xs b q → PathFactors g a (xs ++ [(b, c, s)]) c (q * r) := by
  intro xs
  induction xs with
  | nil =>
    intro a q hp
    obtain ⟨rfl, rfl⟩ := hp
    exact ⟨rfl, r, 1, hedge, ⟨rfl, rfl⟩, by ring⟩
  | cons hd tl ih =>
    intro a q hp
    obtain ⟨x, y, s'⟩ := hd
    obtain ⟨rfl, r₀, q₀, hedge₀, htl, rfl⟩ := hp
    exact ⟨rfl, r₀, q₀ * r, hedge₀, ih htl, by ring⟩

/-- A backward walk whose entries are graph edges yields a factored path from
the root, with rate the product of the walk's factors. -/
theorem walkFrom_pathFactors {g : RateGraph (ℚ × String)} {frm : String}
    {prev : PrevMap (ℚ × String)}
    (hedges : ∀ e ∈ prev, (e.1, e.2.2) ∈ getD g e.2.1) :
    ∀ {cur : String} {W : List (String × String × ℚ × String)},
    WalkFrom prev frm cur W →
    PathFactors g frm ((W.map (fun e => (e.1, e.2.1, e.2.2.2))).reverse) cur
      ((W.map (fun e => e.2.2.1)).prod) := by
  intro cur W hw
  induction hw with
  | nil => exact ⟨rfl, by simp⟩
  | cons hmem htail ih =>
    rename_i p c d W'
    have hedge : (c, d) ∈ getD g p := hedges _ hmem
    simp only [List.map_cons, List.reverse_cons, List.prod_cons]
    have := pathFactors_append_hop (r := d.1) (s := d.2) (by simpa using hedge) ih
    rw [mul_comm]
    exact this

/-- Unfolding equation for one reconstruction step. -/
theorem reconstruct_succ_some {prev : PrevMap (ℚ × String)} {frm cur p : String}
    {r : ℚ} {src : String} (k : Nat) (rate : ℚ) (acc : List (String × String × String))
    (hf : cur ≠ frm) (hl : List.lookup cur prev = some (p, (r, src))) :
    reconstruct prev frm (k + 1) cur rate acc =
      reconstruct prev frm k p (rate * r) (acc ++ [(p, cur, src)]) := by
  rw [reconstruct, if_neg hf, hl]

/-- Unfolding equation: a missing predecessor aborts the reconstruction. -/
theorem reconstruct_succ_none {prev : PrevMap (ℚ × String)} {frm cur : String}
    (k : Nat) (rate : ℚ) (acc : List (String × String × String))
    (hf : cur ≠ frm) (hl : List.lookup cur prev = none) :
    reconstruct prev frm (k + 1) cur rate acc = none := by
  rw [reconstruct, if_neg hf, hl]

/-- The Python reconstruction loop equals a pure fold over the predecessor
walk: the rate is multiplied along the walk and the hops are appended. -/
theorem reconstruct_eq_prevWalk (prev : PrevMap (ℚ × String)) (frm : String) :
    ∀ (fuel : Nat) (cur : String) (rate : ℚ) (acc : List (String × String × String)),
    reconstruct prev frm fuel cur rate acc =
      (prevWalk prev frm fuel cur).map (fun W =>
        (rate * (W.map (fun e => e.2.2.1)).prod,
         acc ++ W.map (fun e => (e.1, e.2.1, e.2.2.2)))) := by
  intro fuel
  induction fuel with
  | zero =>
    intro cur rate acc
    rw [reconstruct, prevWalk]
    rfl
  | succ k ih =>
    intro cur rate acc
    by_cases hf : cur = frm
    · subst hf
      rw [reconstruct, if_pos rfl, prevWalk_succ_frm]
      simp
    · rcases hl : List.lookup cur prev with - | pd
      · rw [reconstruct_succ_none k rate acc hf hl, prevWalk_succ_none k hf hl]
        rfl
      · obtain ⟨p, r, src⟩ := pd
        rw [reconstruct_succ_some k rate acc hf hl, prevWalk_succ_some k hf hl, ih]
        rcases prevWalk prev frm k p with - | W'
        · rfl
        · simp only [Option.map_some']
          refine congrArg some ?_
          refine Prod.ext ?_ ?_
          · show rate * r * _ = rate * _
            simp only [List.map_cons, List.prod_cons]
            ring
          · show (acc ++ [(p, cur, src)]) ++ _ = acc ++ _
            simp [List.append_assoc]


/-- Every hop of a backward walk is an entry of the predecessor map. -/
theorem walkFrom_mem {β : Type} {prev : PrevMap β} {frm : String} :
    ∀ {cur : String} {W : List (String × String × β)},
    WalkFrom prev frm cur W → ∀ e ∈ W, (e.2.1, (e.1, e.2.2)) ∈ prev := by
  intro cur W hw
  induction hw with
  | nil => simp
  | cons hmem htail ih =>
    intro e he
    rcases List.mem_cons.mp he with rfl | he'
    · exact hmem
    · exact ih e he'

/-- Central specification of `find_rate` for distinct endpoints: every
successful resolution returns a factored path from source to destination with
minimal hop count and the expected as-of instant, and resolution succeeds
whenever some path exists. -/
theorem find_rate_main (g : RateGraph (ℚ × String)) (frm tgt : String)
    (l : Option ℤ) (now : ℤ) (hne : frm ≠ tgt) :
    (∀ r p t, find_rate g frm tgt l now = Except.ok (r, p, t) →
      PathFactors g frm p tgt r ∧ t = l.getD now ∧
      ∀ m, Reaches g frm tgt m → p.length ≤ m) ∧
    ((∃ n, Reaches g frm tgt n) →
      ∃ r p t, find_rate g frm tgt l now = Except.ok (r, p, t)) := by
  obtain ⟨h', pf, hcomp⟩ := @bfsLoop_spec (ℚ × String) g frm tgt
    (totalEdges g + 1) [frm] [] [frm] (fun _ => 0) (bfsInv_init g frm) (le_refl _)
  by_cases hsome :
      (List.lookup tgt (bfsLoop g tgt (totalEdges g + 1) [frm] [] [frm])).isSome = true
  · have hkey : tgt ∈ keysOf (bfsLoop g tgt (totalEdges g + 1) [frm] [] [frm]) :=
      lookup_isSome_iff.mp hsome
    obtain ⟨W, hW, hlen, hwalk, hnodup, hbound⟩ :=
      prevWalk_spec pf (h' tgt) tgt rfl (Or.inr hkey) (h' tgt + 1) (Nat.lt_succ_self _)
    have hsub : (W.map (fun e => e.2.1)) ⊆
        keysOf (bfsLoop g tgt (totalEdges g + 1) [frm] [] [frm]) := by
      intro x hx
      rw [List.mem_map] at hx
      obtain ⟨e, heW, rfl⟩ := hx
      have := walkFrom_mem hwalk e heW
      exact List.mem_map_of_mem Prod.fst this
    have hble : h' tgt ≤ (bfsLoop g tgt (totalEdges g + 1) [frm] [] [frm]).length := by
      have hlel := (hnodup.subperm hsub).length_le
      rw [List.length_map] at hlel
      have hkl : (keysOf (bfsLoop g tgt (totalEdges g + 1) [frm] [] [frm])).length =
          (bfsLoop g tgt (totalEdges g + 1) [frm] [] [frm]).length := by
        rw [keysOf, List.length_map]
      omega
    have hWbig : prevWalk (bfsLoop g tgt (totalEdges g + 1) [frm] [] [frm]) frm
        ((bfsLoop g tgt (totalEdges g + 1) [frm] [] [frm]).length + 1) tgt = some W :=
      prevWalk_mono _ _ _ _ (by omega) hW
    have hrec := reconstruct_eq_prevWalk
      (bfsLoop g tgt (totalEdges g + 1) [frm] [] [frm]) frm
      ((bfsLoop g tgt (totalEdges g + 1) [frm] [] [frm]).length + 1) tgt 1 []
    rw [hWbig] at hrec
    have hfr : find_rate g frm tgt l now =
        Except.ok (1 * (W.map (fun e => e.2.2.1)).prod,
          (W.map (fun e => (e.1, e.2.1, e.2.2.2))).reverse, l.getD now) := by
      simp only [find_rate, if_neg hne, hsome, if_true, hrec, Option.map_some',
        List.nil_append]
    constructor
    · intro r p t hok
      rw [hfr] at hok
      have h1 : (1 * (W.map (fun e => e.2.2.1)).prod,
          (W.map (fun e => (e.1, e.2.1, e.2.2.2))).reverse, l.getD now) = (r, p, t) := by
        injection hok
      cases h1
      refine ⟨?_, rfl, ?_⟩
      · rw [one_mul]
        exact walkFrom_pathFactors pf.edges_inv hwalk
      · intro m hm
        rw [List.length_reverse, List.length_map, hlen]
        exact pf.h_min tgt hkey m hm
    · intro hreach
      exact ⟨_, _, _, hfr⟩
  · constructor
    · intro r p t hok
      simp only [find_rate, if_neg hne] at hok
      rw [if_neg hsome] at hok
      cases hok
    · rintro ⟨n, hn⟩
      have := hcomp ⟨n, hn⟩ (Ne.symm hne)
      rw [← lookup_isSome_iff] at this
      exact absurd this hsome


/-- Association-list lookup commutes with mapping over values. -/
theorem lookup_map_value {α γ : Type} (f : α → γ) (k : String) :
    ∀ (l : List (String × α)),
    List.lookup k (l.map (fun kv => (kv.1, f kv.2))) = (List.lookup k l).map f := by
  intro l
  induction l with
  | nil => rfl
  | cons e rest ih =>
    rw [List.map_cons, List.lookup, List.lookup]
    by_cases he : k = e.1
    · subst he
      simp
    · rw [beq_false_of_ne he]
      exact ih

theorem getD_mapGraph {β γ : Type} (f : β → γ) (g : RateGraph β) (a : String) :
    getD (mapGraph f g) a = (getD g a).map (fun e => (e.1, f e.2)) := by
  rw [getD, getD, mapGraph, lookup_map_value]
  cases List.lookup a g <;> rfl

theorem totalEdges_mapGraph {β γ : Type} (f : β → γ) (g : RateGraph β) :
    totalEdges (mapGraph f g) = totalEdges g := by
  rw [totalEdges, totalEdges, mapGraph, List.map_map]
  congr 1
  apply List.map_congr_left
  intro kv hkv
  simp

theorem length_mapPrev {β γ : Type} (f : β → γ) (prev : PrevMap β) :
    (mapPrev f prev).length = prev.length := by
  rw [mapPrev, List.length_map]

theorem lookup_mapPrev {β γ : Type} (f : β → γ) (prev : PrevMap β) (k : String) :
    List.lookup k (mapPrev f prev) = (List.lookup k prev).map (fun c => (c.1, f c.2)) := by
  have h := lookup_map_value (fun c : String × β => (c.1, f c.2)) k prev
  exact h

theorem dictSet_mapPrev {β γ : Type} (f : β → γ) (k : String) (c : String) (d : β) :
    ∀ (prev : PrevMap β),
    mapPrev f (dictSet prev k (c, d)) = dictSet (mapPrev f prev) k (c, f d) := by
  intro prev
  induction prev with
  | nil => rfl
  | cons e rest ih =>
    obtain ⟨k', v⟩ := e
    show mapPrev f (if k' = k then (k, (c, d)) :: rest else (k', v) :: dictSet rest k (c, d)) =
      dictSet ((k', v.1, f v.2) :: mapPrev f rest) k (c, f d)
    by_cases he : k' = k
    · rw [if_pos he]
      show (k, c, f d) :: mapPrev f rest =
        dictSet ((k', v.1, f v.2) :: mapPrev f rest) k (c, f d)
      rw [dictSet, if_pos he]
    · rw [if_neg he]
      show (k', v.1, f v.2) :: mapPrev f (dictSet rest k (c, d)) =
        dictSet ((k', v.1, f v.2) :: mapPrev f rest) k (c, f d)
      rw [ih, dictSet, if_neg he]

theorem scanEdges_map {β γ : Type} (f : β → γ) (cur tgt : String) :
    ∀ (edges : Adj β) (prev : PrevMap β) (visited qAdd : List String),
    scanEdges cur tgt (edges.map (fun e => (e.1, f e.2))) (mapPrev f prev) visited qAdd =
      ((mapPrev f (scanEdges cur tgt edges prev visited qAdd).1),
       (scanEdges cur tgt edges prev visited qAdd).2.1,
       (scanEdges cur tgt edges prev visited qAdd).2.2.1,
       (scanEdges cur tgt edges prev visited qAdd).2.2.2) := by
  intro edges
  induction edges with
  | nil => intro prev visited qAdd; rfl
  | cons e rem ih =>
    intro prev visited qAdd
    obtain ⟨nxt, d⟩ := e
    rw [List.map_cons, scanEdges, scanEdges]
    by_cases hvis : nxt ∈ visited
    · rw [if_pos hvis, if_pos hvis]
      exact ih prev visited qAdd
    · rw [if_neg hvis, if_neg hvis]
      by_cases htgt : nxt = tgt
      · rw [if_pos htgt, if_pos htgt]
        rw [dictSet_mapPrev]
      · rw [if_neg htgt, if_neg htgt]
        rw [← dictSet_mapPrev]
        exact ih (dictSet prev nxt (cur, d)) (nxt :: visited) (qAdd ++ [nxt])

theorem bfsLoop_map {β γ : Type} (f : β → γ) (g : RateGraph β) (tgt : String) :
    ∀ (fuel : Nat) (q : List String) (prev : PrevMap β) (visited : List String),
    bfsLoop (mapGraph f g) tgt fuel q (mapPrev f prev) visited =
      mapPrev f (bfsLoop g tgt fuel q prev visited) := by
  intro fuel
  induction fuel with
  | zero =>
    intro q prev visited
    cases q with
    | nil => rw [bfsLoop, bfsLoop]
    | cons cur rest => rw [bfsLoop, bfsLoop]
  | succ k ih =>
    intro q prev visited
    cases q with
    | nil => rw [bfsLoop, bfsLoop]
    | cons cur rest =>
      rw [bfsLoop, bfsLoop, getD_mapGraph, scanEdges_map]
      rcases hscan : scanEdges cur tgt (getD g cur) prev visited [] with ⟨p', v', q', f'⟩
      cases f' with
      | true => rfl
      | false => exact ih (rest ++ q') p' v'

theorem prevWalk_map {β γ : Type} (f : β → γ) (prev : PrevMap β) (frm : String) :
    ∀ (fuel : Nat) (cur : String),
    prevWalk (mapPrev f prev) frm fuel cur =
      (prevWalk prev frm fuel cur).map
        (List.map (fun e => (e.1, e.2.1, f e.2.2))) := by
  intro fuel
  induction fuel with
  | zero => intro cur; rfl
  | succ k ih =>
    intro cur
    by_cases hf : cur = frm
    · subst hf
      rw [prevWalk_succ_frm, prevWalk_succ_frm]
      rfl
    · rcases hl : List.lookup cur prev with - | pd
      · have hl' : List.lookup cur (mapPrev f prev) = none := by
          rw [lookup_mapPrev, hl]
          rfl
        rw [prevWalk_succ_none k hf hl, prevWalk_succ_none k hf hl']
        rfl
      · obtain ⟨p, d⟩ := pd
        have hl' : List.lookup cur (mapPrev f prev) = some (p, f d) := by
          rw [lookup_mapPrev, hl]
          rfl
        rw [prevWalk_succ_some k hf hl, prevWalk_succ_some k hf hl', ih]
        cases prevWalk prev frm k p <;> rfl


/-- Mapping a function over an option preserves definedness. -/
theorem isSome_map {α γ : Type} (f : α → γ) (o : Option α) :
    (o.map f).isSome = o.isSome := by
  cases o <;> rfl

/-- Closed form of `find_rate` for distinct endpoints, phrased through the
pure predecessor walk. -/
theorem find_rate_as_walk (g : RateGraph (ℚ × String)) (frm tgt : String)
    (l : Option ℤ) (now : ℤ) (hne : frm ≠ tgt) :
    find_rate g frm tgt l now =
      (if (List.lookup tgt (bfsLoop g tgt (totalEdges g + 1) [frm] [] [frm])).isSome =
          true then
        match prevWalk (bfsLoop g tgt (totalEdges g + 1) [frm] [] [frm]) frm
            ((bfsLoop g tgt (totalEdges g + 1) [frm] [] [frm]).length + 1) tgt with
        | some W =>
            Except.ok (1 * (W.map (fun e => e.2.2.1)).prod,
              (W.map (fun e => (e.1, e.2.1, e.2.2.2))).reverse, l.getD now)
        | none => Except.error "KeyError"
      else Except.error (noPathMsg frm tgt)) := by
  simp only [find_rate, if_neg hne, reconstruct_eq_prevWalk]
  by_cases hs : (List.lookup tgt
      (bfsLoop g tgt (totalEdges g + 1) [frm] [] [frm])).isSome = true
  · rw [if_pos hs, if_pos hs]
    rcases hw : prevWalk (bfsLoop g tgt (totalEdges g + 1) [frm] [] [frm]) frm
        ((bfsLoop g tgt (totalEdges g + 1) [frm] [] [frm]).length + 1) tgt with - | W
    · rfl
    · rfl
  · rw [if_neg hs, if_neg hs]

/-- The returned conversion path is determined by the source-labelled graph
structure alone: two graphs with the same payload-erased shape (same nodes,
same targets in the same insertion order, same source labels) yield the same
path, whatever the rate values are. -/
theorem find_rate_structure_determined (g g' : RateGraph (ℚ × String))
    (frm tgt : String) (l l' : Option ℤ) (now now' : ℤ)
    (hstruct : mapGraph Prod.snd g' = mapGraph Prod.snd g) :
    ∀ r p t, find_rate g frm tgt l now = Except.ok (r, p, t) →
      ∃ r' t', find_rate g' frm tgt l' now' = Except.ok (r', p, t') := by
  intro r p t hok
  by_cases hne : frm = tgt
  · subst hne
    rw [find_rate, if_pos rfl] at hok
    have h1 : ((1 : ℚ), ([] : List (String × String × String)), l.getD now) = (r, p, t) := by
      injection hok
    cases h1
    exact ⟨1, l'.getD now', by rw [find_rate, if_pos rfl]⟩
  · have htot : totalEdges g' = totalEdges g := by
      rw [← totalEdges_mapGraph Prod.snd g', hstruct, totalEdges_mapGraph]
    have hbfs' : mapPrev Prod.snd (bfsLoop g' tgt (totalEdges g' + 1) [frm] [] [frm]) =
        mapPrev Prod.snd (bfsLoop g tgt (totalEdges g + 1) [frm] [] [frm]) := by
      rw [← bfsLoop_map Prod.snd g' tgt (totalEdges g' + 1) [frm] [] [frm]]
      rw [← bfsLoop_map Prod.snd g tgt (totalEdges g + 1) [frm] [] [frm]]
      rw [hstruct, htot]
    have hlen : (bfsLoop g' tgt (totalEdges g' + 1) [frm] [] [frm]).length =
        (bfsLoop g tgt (totalEdges g + 1) [frm] [] [frm]).length := by
      have hc := congrArg List.length hbfs'
      rw [length_mapPrev, length_mapPrev] at hc
      exact hc
    have hlk : (List.lookup tgt
          (bfsLoop g' tgt (totalEdges g' + 1) [frm] [] [frm])).isSome =
        (List.lookup tgt (bfsLoop g tgt (totalEdges g + 1) [frm] [] [frm])).isSome := by
      have h1 := lookup_mapPrev Prod.snd
        (bfsLoop g' tgt (totalEdges g' + 1) [frm] [] [frm]) tgt
      have h2 := lookup_mapPrev Prod.snd
        (bfsLoop g tgt (totalEdges g + 1) [frm] [] [frm]) tgt
      rw [hbfs'] at h1
      rw [h2] at h1
      have h3 := congrArg Option.isSome h1
      rw [isSome_map, isSome_map] at h3
      exact h3.symm
    rw [find_rate_as_walk g frm tgt l now hne] at hok
    rw [find_rate_as_walk g' frm tgt l' now' hne]
    by_cases hs : (List.lookup tgt
        (bfsLoop g tgt (totalEdges g + 1) [frm] [] [frm])).isSome = true
    · rw [if_pos hs] at hok
      rw [if_pos (by rw [hlk]; exact hs)]
      rcases hw : prevWalk (bfsLoop g tgt (totalEdges g + 1) [frm] [] [frm]) frm
          ((bfsLoop g tgt (totalEdges g + 1) [frm] [] [frm]).length + 1) tgt with - | W
      · rw [hw] at hok
        cases hok
      · rw [hw] at hok
        have hw1 := prevWalk_map Prod.snd
          (bfsLoop g' tgt (totalEdges g' + 1) [frm] [] [frm]) frm
          ((bfsLoop g tgt (totalEdges g + 1) [frm] [] [frm]).length + 1) tgt
        have hw2 := prevWalk_map Prod.snd
          (bfsLoop g tgt (totalEdges g + 1) [frm] [] [frm]) frm
          ((bfsLoop g tgt (totalEdges g + 1) [frm] [] [frm]).length + 1) tgt
        rw [hbfs'] at hw1
        rw [hw2, hw] at hw1
        rcases hw' : prevWalk (bfsLoop g' tgt (totalEdges g' + 1) [frm] [] [frm]) frm
            ((bfsLoop g tgt (totalEdges g + 1) [frm] [] [frm]).length + 1) tgt with - | W'
        · rw [hw'] at hw1
          cases hw1
        · rw [hw'] at hw1
          simp only [Option.map_some'] at hw1
          have hpath : W.map (fun e => (e.1, e.2.1, e.2.2.2)) =
              W'.map (fun e => (e.1, e.2.1, e.2.2.2)) := by
            injection hw1
          rw [hlen, hw']
          have h1 : (1 * (W.map (fun e => e.2.2.1)).prod,
              (W.map (fun e => (e.1, e.2.1, e.2.2.2))).reverse, l.getD now) = (r, p, t) := by
            injection hok
          cases h1
          refine ⟨1 * (W'.map (fun e => e.2.2.1)).prod, l'.getD now', ?_⟩
          show Except.ok (1 * (W'.map (fun e => e.2.2.1)).prod,
              (W'.map (fun e => (e.1, e.2.1, e.2.2.2))).reverse, l'.getD now') =
            Except.ok (1 * (W'.map (fun e => e.2.2.1)).prod,
              (W.map (fun e => (e.1, e.2.1, e.2.2.2))).reverse, l'.getD now')
          rw [hpath]
    · rw [if_neg hs] at hok
      cases hok


/-- A successful resolution reports as-of `lastSourcesAsOf` when present,
otherwise the current time. -/
theorem find_rate_asof (g : RateGraph (ℚ × String)) (frm tgt : String)
    (l : Option ℤ) (now : ℤ) (x : ℚ × List (String × String × String) × ℤ)
    (h : find_rate g frm tgt l now = Except.ok x) : x.2.2 = l.getD now := by
  by_cases hne : frm = tgt
  · rw [find_rate, if_pos hne] at h
    injection h with h'
    rw [← h']
  · rw [find_rate_as_walk g frm tgt l now hne] at h
    by_cases hs : (List.lookup tgt
        (bfsLoop g tgt (totalEdges g + 1) [frm] [] [frm])).isSome = true
    · rw [if_pos hs] at h
      rcases hw : prevWalk (bfsLoop g tgt (totalEdges g + 1) [frm] [] [frm]) frm
          ((bfsLoop g tgt (totalEdges g + 1) [frm] [] [frm]).length + 1) tgt with - | W
      · rw [hw] at h
        cases h
      · rw [hw] at h
        injection h with h'
        rw [← h']
    · rw [if_neg hs] at h
      cases h

/-! Claim C3: BFS minimality and structural determinism. -/

/-- Claim C3: for every graph and every pair of distinct currency nodes
connected by some path, the resolver succeeds with an actual conversion path
whose hop count is minimal among all paths from source to destination, and
the returned path is determined by breadth-first discovery over the
source-labelled, payload-erased structure (edge insertion order): any graph
with the same erased structure returns the identical path, whatever its rate
values. -/
theorem find_rate_bfs_minimal (g : RateGraph (ℚ × String)) (frm tgt : String)
    (l : Option ℤ) (now : ℤ) (hne : frm ≠ tgt) (n : Nat)
    (hreach : Reaches g frm tgt n) :
    ∃ r p t, find_rate g frm tgt l now = Except.ok (r, p, t) ∧
      PathFactors g frm p tgt r ∧
      (∀ m, Reaches g frm tgt m → p.length ≤ m) ∧
      (∀ (g' : RateGraph (ℚ × String)) (l' : Option ℤ) (now' : ℤ),
        mapGraph Prod.snd g' = mapGraph Prod.snd g →
        ∃ r' t', find_rate g' frm tgt l' now' = Except.ok (r', p, t')) := by
  obtain ⟨hchar, hsucc⟩ := find_rate_main g frm tgt l now hne
  obtain ⟨r, p, t, hok⟩ := hsucc ⟨n, hreach⟩
  obtain ⟨hpf, hT, hmin⟩ := hchar r p t hok
  exact ⟨r, p, t, hok, hpf, hmin, fun g' l' now' hstruct =>
    find_rate_structure_determined g g' frm tgt l l' now now' hstruct r p t hok⟩

/-- Witness for C3 at a concrete input: a one-edge graph. -/
theorem find_rate_bfs_minimal_witness :
    ∃ r p t, find_rate [("A", [("B", ((2 : ℚ), "S"))])] "A" "B" none 0 =
        Except.ok (r, p, t) ∧
      PathFactors [("A", [("B", ((2 : ℚ), "S"))])] "A" p "B" r ∧
      (∀ m, Reaches [("A", [("B", ((2 : ℚ), "S"))])] "A" "B" m → p.length ≤ m) ∧
      (∀ (g' : RateGraph (ℚ × String)) (l' : Option ℤ) (now' : ℤ),
        mapGraph Prod.snd g' = mapGraph Prod.snd [("A", [("B", ((2 : ℚ), "S"))])] →
        ∃ r' t', find_rate g' "A" "B" l' now' = Except.ok (r', p, t')) := by
  refine find_rate_bfs_minimal [("A", [("B", ((2 : ℚ), "S"))])] "A" "B" none 0
    (by decide) 1 ?_
  exact Reaches.step
    (show ("B", ((2 : ℚ), "S")) ∈ getD [("A", [("B", ((2 : ℚ), "S"))])] "A" by decide)
    (Reaches.refl "B")


/-! Claim C9: result semantics of a successful refresh. -/

/-- Claim C9: on a successful non-cached resolution, the result's as-of
instant is the maximum of the three snapshot timestamps fetched during the
refresh, and the rate is the product of the factors of the hops on the
returned path (1 for the identity case, where the path is empty); whenever no
snapshot timestamp is available, `find_rate` stamps the current time instead. -/
theorem get_rate_result_semantics (st : RateService) (cbr : CbrRates) (nbu : NbuRates)
    (bnc : BinanceRates) (now : ℤ) (frm tgt : String) (res : RateResult)
    (st' : RateService) (n : Nat)
    (hmiss : ∀ c, List.lookup (upper frm ++ "->" ++ upper tgt) st.cache = some c →
      c.1 ≤ now)
    (h : get_rate st (Except.ok cbr) (Except.ok nbu) (Except.ok bnc) now frm tgt =
      (Except.ok res, st', n)) :
    res.as_of = max (max cbr.as_of nbu.as_of) bnc.as_of ∧
    PathFactors (build_graph cbr nbu bnc) (upper frm) res.path (upper tgt) res.rate ∧
    ∀ (g : RateGraph (ℚ × String)) (a b : String) (now' : ℤ)
      (x : ℚ × List (String × String × String) × ℤ),
      find_rate g a b none now' = Except.ok x → x.2.2 = now' := by
  rw [get_rate_stale st _ _ _ now frm tgt hmiss] at h
  simp only [get_rate_refresh, fetch_all] at h
  rcases hfr : find_rate (build_graph cbr nbu bnc) (upper frm) (upper tgt)
      (some (max (max cbr.as_of nbu.as_of) bnc.as_of)) now with e | x
  · rw [hfr] at h
    simp at h
  · rw [hfr] at h
    obtain ⟨rate, path, asOf⟩ := x
    have h1 : Except.ok (⟨rate, path, asOf⟩ : RateResult) = Except.ok res :=
      congrArg Prod.fst h
    have h2 : (⟨rate, path, asOf⟩ : RateResult) = res := by injection h1
    have hasof := find_rate_asof _ _ _ _ _ _ hfr
    refine ⟨?_, ?_, ?_⟩
    · rw [← h2]
      exact hasof
    · rw [← h2]
      by_cases hid : upper frm = upper tgt
      · rw [find_rate, if_pos hid] at hfr
        have h3 : ((1 : ℚ), ([] : List (String × String × String)),
            Option.getD (some (max (max cbr.as_of nbu.as_of) bnc.as_of)) now) =
            (rate, path, asOf) := by injection hfr
        have hr : (1 : ℚ) = rate := congrArg Prod.fst h3
        have hp : ([] : List (String × String × String)) = path :=
          congrArg (fun z => z.2.1) h3
        rw [← hr, ← hp]
        exact ⟨hid, rfl⟩
      · exact ((find_rate_main _ _ _ _ _ hid).1 rate path asOf hfr).1
    · intro g a b now' x hx
      have := find_rate_asof g a b none now' x hx
      simpa using this


set_option maxRecDepth 2000 in
/-- Witness for C9 at a concrete input: resolving EUR→UAH on an empty cache
with concrete snapshots. -/
theorem get_rate_result_semantics_witness :
    (⟨5, [("EUR", "UAH", "NBU")], 11⟩ : RateResult).as_of =
        max (max exCbr.as_of exNbu.as_of) exBnc.as_of ∧
    PathFactors (build_graph exCbr exNbu exBnc) (upper "EUR")
        (⟨5, [("EUR", "UAH", "NBU")], 11⟩ : RateResult).path (upper "UAH")
        (⟨5, [("EUR", "UAH", "NBU")], 11⟩ : RateResult).rate ∧
    ∀ (g : RateGraph (ℚ × String)) (a b : String) (now' : ℤ)
      (x : ℚ × List (String × String × String) × ℤ),
      find_rate g a b none now' = Except.ok x → x.2.2 = now' := by
  refine get_rate_result_semantics emptyService exCbr exNbu exBnc 0 "EUR" "UAH"
    ⟨5, [("EUR", "UAH", "NBU")], 11⟩
    ⟨600, [("EUR->UAH", (600, ⟨5, [("EUR", "UAH", "NBU")], 11⟩))], some 11⟩ 3
    (by intro c hc; cases hc) ?_
  rw [get_rate_stale emptyService _ _ _ 0 "EUR" "UAH" (by intro c hc; cases hc)]
  have hu1 : upper "EUR" = "EUR" := rfl
  have hu2 : upper "UAH" = "UAH" := rfl
  rw [hu1, hu2]
  simp only [get_rate_refresh, fetch_all, exCbr, exNbu, exBnc, emptyService]
  rw [build_graph_eq]
  simp only [graphNF, find_rate, bfsLoop, scanEdges, getD, dictSet,
    reconstruct, totalEdges, List.lookup, List.map, List.sum_cons, List.sum_nil,
    List.length, List.mem_cons, List.mem_singleton, List.not_mem_nil,
    String.reduceBEq, String.reduceEq, reduceIte, Option.getD, Option.isSome,
    List.append_nil, List.nil_append, List.cons_append, List.reverse,
    List.reverseAux, RateService.mk.injEq, RateResult.mk.injEq, Prod.mk.injEq,
    String.reduceAppend]
  norm_num


end U2C
